import Mathlib

/-!
Verification of core algorithms of the `mcsl-daemon-rs` daemon.

Rust sources are shallowly embedded: `u64` values are modelled as `Nat`
(no arithmetic in the modelled paths overflows 64 bits on the considered
inputs), `&str` paths as `List Char`, byte buffers as `List Nat`,
fallible functions as `Except`/`Option`, and the stateful collections
(`BTreeMap`, session maps, atomics) as explicit functional state.
-/

namespace U64Remain

/--
The `BTreeMap<u64, u64>` inside `U64Remain` (src/daemon/src/utils/remains.rs),
modelled as an association list sorted by key in strictly increasing order,
which is the order in which `BTreeMap::range(..)` iterates.
-/
abbrev Remains := List (Nat × Nat)

/-- `BTreeMap::insert`: ordered insert, overwriting the value of an existing key. -/
def mapInsert : Remains → Nat → Nat → Remains
  | [], k, v => [(k, v)]
  | (s, e) :: rest, k, v =>
    if k < s then (k, v) :: (s, e) :: rest
    else if k = s then (k, v) :: rest
    else (s, e) :: mapInsert rest k v

/-- `BTreeMap::remove` by key. -/
def mapRemove : Remains → Nat → Remains
  | [], _ => []
  | (s, e) :: rest, k => if k = s then rest else (s, e) :: mapRemove rest k

/-- `U64Remain::new(begin, end)`: the single interval `[begin, end)`. -/
def new (b e : Nat) : Remains := [(b, e)]

/--
The `for (&begin, &end) in self.remains.range(..)` loop of `U64Remain::reduce`
(remains.rs lines 17-44).  The loop walks the entries of the map snapshot in
ascending key order; fully covered intervals are only marked in `to_remove`
(the loop continues), while the three partial-overlap branches mutate the map
and `break`.  The marked keys are removed after the loop.
-/
def reduceLoop (a b : Nat) : List (Nat × Nat) → Remains → List Nat → Remains × List Nat
  | [], m, toRemove => (m, toRemove)
  | (s, e) :: rest, m, toRemove =>
    if a ≤ s ∧ b ≥ e then reduceLoop a b rest m (toRemove ++ [s])
    else if a > s ∧ b < e then (mapInsert (mapInsert m b e) s a, toRemove)
    else if s < a ∧ a < e then (mapInsert m s a, toRemove)
    else if s < b ∧ b < e then (mapRemove (mapInsert m b e) s, toRemove)
    else reduceLoop a b rest m toRemove

/-- `U64Remain::reduce(from, to)`, subtracting `[a, b)`. -/
def reduce (a b : Nat) (m : Remains) : Remains :=
  let r := reduceLoop a b m m []
  r.2.foldl mapRemove r.1

/-- `U64Remain::get_remains()`: the interval list itself. -/
def get_remains (m : Remains) : List (Nat × Nat) := m

/-- `U64Remain::get_remain()`: total length of the remaining intervals. -/
def get_remain (m : Remains) : Nat := (m.map fun p => p.2 - p.1).sum

/-- `U64Remain::done()`: true iff no intervals remain. -/
def done (m : Remains) : Bool := m.isEmpty

/--
Derived clean recursion for `reduce` on a sorted interval list; proved equal
to `reduce` on well-formed states (`reduce_eq_reduceImpl` below).  It mirrors
the loop branch per branch: a fully covered head is dropped and the walk
continues, the three partial-overlap branches perform the local surgery and
stop (the `break`), and an untouched head is kept while the walk continues.
-/
def reduceImpl (a b : Nat) : Remains → Remains
  | [] => []
  | (s, e) :: rest =>
    if a ≤ s ∧ b ≥ e then reduceImpl a b rest
    else if a > s ∧ b < e then (s, a) :: (b, e) :: rest
    else if s < a ∧ a < e then (s, a) :: rest
    else if s < b ∧ b < e then (b, e) :: rest
    else (s, e) :: reduceImpl a b rest

/-- Outcome of one walk of the `reduce` loop over the entry snapshot:
either the walk runs to the end having only marked keys for removal, or it
stops at the first partial-overlap branch (`case2`/`case3`/`case4` name the
middle-split, right-trim and left-trim branches, in source order). -/
inductive Outcome where
  | clean (marks : List Nat)
  | case2 (marks : List Nat) (s e : Nat)
  | case3 (marks : List Nat) (s e : Nat)
  | case4 (marks : List Nat) (s e : Nat)
deriving DecidableEq

/-- Prepend a key marked for removal to a walk outcome. -/
def Outcome.addMark (k : Nat) : Outcome → Outcome
  | .clean ms => .clean (k :: ms)
  | .case2 ms s e => .case2 (k :: ms) s e
  | .case3 ms s e => .case3 (k :: ms) s e
  | .case4 ms s e => .case4 (k :: ms) s e

/-- The walk of the loop over the snapshot alone (no map mutation). -/
def walk (a b : Nat) : List (Nat × Nat) → Outcome
  | [] => .clean []
  | (s, e) :: rest =>
    if a ≤ s ∧ b ≥ e then (walk a b rest).addMark s
    else if a > s ∧ b < e then .case2 [] s e
    else if s < a ∧ a < e then .case3 [] s e
    else if s < b ∧ b < e then .case4 [] s e
    else walk a b rest

/-- The keys marked `to_remove` during a walk. -/
def Outcome.marks : Outcome → List Nat
  | .clean ms => ms
  | .case2 ms _ _ => ms
  | .case3 ms _ _ => ms
  | .case4 ms _ _ => ms

/-- The map mutation performed by the branch the walk stopped at. -/
def Outcome.apply (a b : Nat) (m : Remains) : Outcome → Remains
  | .clean _ => m
  | .case2 _ s e => mapInsert (mapInsert m b e) s a
  | .case3 _ s _ => mapInsert m s a
  | .case4 _ s e => mapRemove (mapInsert m b e) s

/-- Well-formedness of a tracker state: every interval is non-empty and the
intervals are pairwise ordered and disjoint (so keys strictly increase). -/
def Inv (m : Remains) : Prop :=
  (∀ p ∈ m, p.1 < p.2) ∧ m.Pairwise fun p q => p.2 ≤ q.1

instance : DecidablePred Inv := fun m => by
  unfold Inv; infer_instance

/-- Decidable membership of a byte position in the remaining intervals. -/
def covers (m : Remains) (x : Nat) : Bool :=
  m.any fun p => decide (p.1 ≤ x) && decide (x < p.2)

/-- Whether a stored interval has non-empty intersection with `[a, b)`. -/
def overlapsB (a b : Nat) (p : Nat × Nat) : Bool :=
  decide (p.1 < b) && decide (a < p.2)

/-- Number of stored intervals meeting `[a, b)`. -/
def countOverlap (m : Remains) (a b : Nat) : Nat := m.countP (overlapsB a b)

/-- Fold a sequence of `reduce(a, b)` calls over a tracker state. -/
def applyCalls (m : Remains) (calls : List (Nat × Nat)) : Remains :=
  calls.foldl (fun m c => reduce c.1 c.2 m) m

/-- Membership of a position in the union of the call ranges `[aᵢ, bᵢ)`. -/
def coveredBy (calls : List (Nat × Nat)) (x : Nat) : Bool :=
  calls.any fun c => decide (c.1 ≤ x) && decide (x < c.2)

/-- A call sequence in which every call is ordered (`a ≤ b`) and, at the
moment it is issued, meets at most one stored interval. -/
def validSeq : Remains → List (Nat × Nat) → Bool
  | _, [] => true
  | m, c :: rest =>
    decide (c.1 ≤ c.2) && decide (countOverlap m c.1 c.2 ≤ 1) &&
      validSeq (reduce c.1 c.2 m) rest

end U64Remain

namespace Files

/-- `Files::ROOT` (src/daemon/src/storage/files.rs). -/
def ROOT : List Char := "daemon".toList

/-- `Files::DOWNLOAD_ROOT`. -/
def DOWNLOAD_ROOT : List Char := "daemon/downloads".toList

/-- `path.split(['\\', '/'])` on a character list. -/
def splitSeps : List Char → List Char → List (List Char)
  | [], cur => [cur.reverse]
  | c :: rest, cur =>
    if c = '/' ∨ c = '\\' then cur.reverse :: splitSeps rest []
    else splitSeps rest (c :: cur)

/-- The split-and-drop-empties prefix of `Files::normalize_path`:
`path.split(['\\', '/']).filter(|s| !s.is_empty())`. -/
def pathParts (path : List Char) : List (List Char) :=
  (splitSeps path []).filter fun s => ¬s.isEmpty

/-- The stack pass of `Files::normalize_path`: `"."` is dropped; `".."` pops
the stack and then pushes the literal `".."` itself (as in the source); any
other segment is pushed. -/
def normStack (parts : List (List Char)) : List (List Char) :=
  parts.foldl
    (fun stack part =>
      if part = ['.'] then stack
      else if part = ['.', '.'] then stack.dropLast ++ [part]
      else stack ++ [part])
    []

/-- `Files::normalize_path`: fold the stack into a string, appending `'/'`
after every segment. -/
def normalize_path (path : List Char) : List Char :=
  (normStack (pathParts path)).foldl (fun acc part => acc ++ part ++ ['/']) []

/-- `Files::validate_path`: the normalized path starts with the normalized
root. -/
def validate_path (path root : List Char) : Bool :=
  (normalize_path root).isPrefixOf (normalize_path path)

/-- The filesystem / session facts `Files::upload_request` consults, as a
stable snapshot: the paths of the active upload sessions and whether opening
(and preallocating) the `.tmp` file succeeds. -/
structure UploadEnv where
  uploadingPaths : List (List Char)
  openOk : Bool

/--
`Files::upload_request` (files.rs lines 115-160), up to the minted session id
(the returned UUID is left out of the model).  Faithfully to the source, the
first guard bails with "invalid path" when `path` is supplied AND
`validate_path(p, ROOT)` holds — i.e. when the path IS inside the root.
-/
def upload_request (env : UploadEnv) (path : Option (List Char)) :
    Except String Unit :=
  if (match path with | some p => validate_path p ROOT | none => false) then
    .error "invalid path"
  else
    let p := path.getD DOWNLOAD_ROOT
    if env.uploadingPaths.any fun q => q = p then .error "file is uploading"
    else if env.openOk then .ok () else .error "io error"

/-- The filesystem / session facts `Files::download_request` consults, as a
stable snapshot of one moment: whether `try_exists` errors, whether the file
exists, the active download-session paths, the configured per-file cap
(`protocol_config.v1.file_download_sessions`), and the size and SHA-1 the
successful branch would report. -/
structure DownloadEnv where
  existsErr : Bool
  fileExists : Bool
  sessionPaths : List (List Char)
  cap : Nat
  openOk : Bool
  size : Nat
  sha1 : List Char

/--
`Files::download_request` (files.rs lines 257-292), up to the minted session
id.  Faithfully to the source: it bails with "file not found" when
`try_exists` returns TRUE; the session-count guard uses a strict `>` against
the cap; `get_sha1` then opens the file read-only (failing when the file does
not exist), as does the subsequent `File::options().read(true).open`.
-/
def download_request (env : DownloadEnv) (path : List Char) :
    Except String (Nat × List Char) :=
  if ¬validate_path path ROOT then .error "invalid path"
  else if env.existsErr then .error "io error"
  else if env.fileExists then .error "file not found"
  else if (env.sessionPaths.filter fun q => q = path).length > env.cap then
    .error "max download sessions of file reached"
  else if ¬env.fileExists then .error "get_sha1: failed to open file"
  else if ¬env.openOk then .error "failed to open file"
  else .ok (env.size, env.sha1)

/-- Pair bytes into UTF-16 code units as `Files::bytes_to_string_data` does:
`c[0] as u16 | (c[1] as u16) << 8` (the FIRST byte is the LOW half). -/
def toUnits : List Nat → List Nat
  | [] => []
  | [c0] => [c0]
  | c0 :: c1 :: rest => (c0 ||| (c1 <<< 8)) :: toUnits rest

/-- Validity of a UTF-16 code-unit sequence (`String::from_utf16` succeeds
iff every surrogate is part of a high-low pair). -/
def validUtf16 : List Nat → Bool
  | [] => true
  | u :: rest =>
    if 0xD800 ≤ u ∧ u ≤ 0xDBFF then
      match rest with
      | [] => false
      | v :: rest' => if 0xDC00 ≤ v ∧ v ≤ 0xDFFF then validUtf16 rest' else false
    else if 0xDC00 ≤ u ∧ u ≤ 0xDFFF then false
    else validUtf16 rest

/-- `Files::bytes_to_string_data` (files.rs lines 98-110): zero-pad to even
length, pair bytes little-endian into code units, and build the string —
`none` models the `.unwrap()` panic when the units are not valid UTF-16.
The string is represented by its code-unit sequence. -/
def bytes_to_string_data (bytes : List Nat) : Option (List Nat) :=
  let padded := if bytes.length % 2 ≠ 0 then bytes ++ [0] else bytes
  let units := toUnits padded
  if validUtf16 units then some units else none

/--
`Files::download_range` (files.rs lines 294-319) for an open session over
`file` (so the session size is `file.length`).  The source allocates
`vec![0; to - from]` — a vector already at full length — and then calls
`read_buf`, which APPENDS to the vector's spare capacity: the read bytes land
AFTER the `to - from` zeros.  `k` models how many bytes that single appending
read returns.
-/
def download_range (file : List Nat) (a b : Nat) (k : Nat) :
    Except String (Option (List Nat)) :=
  if ¬(b ≤ file.length ∧ a < b) then
    .error "invalid download file id or invalid range"
  else
    .ok (bytes_to_string_data (List.replicate (b - a) 0 ++ (file.drop a).take k))

/-- Big-endian byte serialization of a UTF-16 code-unit sequence
(`u16::to_be_bytes` per unit) — this is what the spec says the returned
string must decode to, and what `upload_chunk`'s decoder produces. -/
def beBytes (units : List Nat) : List Nat :=
  units.flatMap fun u => [u / 256 % 256, u % 256]

/-- An upload session (`FileUploadInfo` / `FileLoadInfo`,
src/daemon/src/storage/file.rs) restricted to the fields `upload_chunk`
reads: declared size, configured chunk size, the open `.tmp` file's bytes and
the remainder tracker.  Path and expected SHA-1 play no part in the modelled
claims. -/
structure FileUploadInfo where
  size : Nat
  chunk_size : Nat
  file : List Nat
  remain : U64Remain.Remains
deriving DecidableEq

/-- `seek(SeekFrom::Start(off))` followed by `write_all(bytes)` on a file:
overwrite in place, zero-filling any gap past the old end. -/
def writeAt (file : List Nat) (off : Nat) (bytes : List Nat) : List Nat :=
  file.take off ++ List.replicate (off - file.length) 0 ++ bytes ++
    file.drop (off + bytes.length)

/--
`Files::upload_chunk` (files.rs lines 162-235) on one session, after the
UTF-16 decode of the `data` argument (`data` here is the resulting byte
vector).  Faithfully to the source: it bails when `offset >= size`, writes
only the first `min(chunk_size, data.len())` bytes at `offset`, but reduces
the tracker by the FULL `[offset, offset + data.len())` range; it reports
`(true, 0)` when the tracker reaches zero (the rename/SHA-1 finalization
does not change the written bytes).
-/
def upload_chunk (st : FileUploadInfo) (offset : Nat) (data : List Nat) :
    Except String (Bool × Nat × FileUploadInfo) :=
  if offset ≥ st.size then .error "offset out of range"
  else
    let file := writeAt st.file offset (data.take (min st.chunk_size data.length))
    let remain := U64Remain.reduce offset (offset + data.length) st.remain
    let st := { st with file := file, remain := remain }
    let r := U64Remain.get_remain st.remain
    if r > 0 then .ok (false, st.size - r, st) else .ok (true, 0, st)

/-- The state `Files::upload_request` creates: a `.tmp` file preallocated to
`size` bytes (all zero) and a remainder tracker over `[0, size)`. -/
def uploadInit (size chunk_size : Nat) : FileUploadInfo :=
  ⟨size, chunk_size, List.replicate size 0, U64Remain.new 0 size⟩

/-- Run a sequence of `upload_chunk(offset, data)` calls on a session,
stopping at the first error. -/
def uploadChunks (st : FileUploadInfo) :
    List (Nat × List Nat) → Except String FileUploadInfo
  | [] => .ok st
  | c :: rest =>
    match upload_chunk st c.1 c.2 with
    | .error e => .error e
    | .ok (_, _, st') => uploadChunks st' rest

/-- The last submitted chunk whose byte range covers position `j`
(last-writer-wins composition of the chunk sequence). -/
def lastChunkAt (calls : List (Nat × List Nat)) (j : Nat) :
    Option (Nat × List Nat) :=
  calls.reverse.find? fun c => decide (c.1 ≤ j) && decide (j < c.1 + c.2.length)

end Files

namespace ProtocolV1

/-- `uuid::Uuid`, modelled by its 128-bit value. -/
abbrev Uuid := Nat

/-- `Uuid::nil()`. -/
def Uuid.nil : Uuid := 0

/-- `Retcode` (src/protocol/src/v1/action/retcode.rs). -/
structure Retcode where
  ret_code : Int
  message : String
deriving DecidableEq

/-- `Retcode::with_message`. -/
def Retcode.with_message (r : Retcode) (msg : String) : Retcode :=
  { ret_code := r.ret_code, message := r.message ++ ": " ++ msg }

/-- `retcode::OK`. -/
def OK : Retcode := ⟨0, "ok"⟩

/-- `retcode::REQUEST_ERROR`. -/
def REQUEST_ERROR : Retcode := ⟨10000, "Request Error"⟩

/-- `retcode::BAD_REQUEST`. -/
def BAD_REQUEST : Retcode := ⟨10001, "Bad Request"⟩

/-- `retcode::RATE_LIMIT_EXCEEDED`. -/
def RATE_LIMIT_EXCEEDED : Retcode := ⟨10005, "Rate Limit Exceeded"⟩

/-- `ActionStatus` (src/protocol/src/v1/action/status.rs). -/
inductive ActionStatus where
  | ok
  | error
deriving DecidableEq

/-- `JavaInfo` (src/protocol/src/files/java_info.rs). -/
structure JavaInfo where
  path : String
  version : String
  architecture : String
deriving DecidableEq

/-- `ActionParameters` (src/protocol/src/v1/action/actions.rs): the closed
action set, with `&str` fields as `String`, `u64` as `Nat` and the raw
attachment as an optional byte list. -/
inductive ActionParameters where
  | SubscribeEvent
  | UnsubscribeEvent
  | Ping
  | GetSystemInfo
  | GetPermissions
  | GetJavaList
  | GetDirectoryInfo (path : String)
  | GetFileInfo (path : String)
  | FileUploadRequest (path : Option String) (sha1 : Option String)
      (chunk_size : Nat) (size : Nat)
  | FileUploadChunk (file_id : Uuid) (offset : Nat) (data : String)
  | FileUploadChunkRaw (file_id : Uuid) (offset : Nat) (data : Option (List Nat))
  | FileUploadCancel (file_id : Uuid)
  | FileDownloadRequest (path : String)
  | FileDownloadRange (file_id : Uuid) (range : String)
  | FileDownloadClose (file_id : Uuid)
  | AddInstance
  | RemoveInstance
  | StartInstance
  | StopInstance
  | KillInstance
  | SendToInstance
  | GetInstanceReport
  | GetAllReports
deriving DecidableEq

/-- `ActionResults` (same file), payloads as in the source. -/
inductive ActionResults where
  | ActionError
  | SubscribeEvent
  | UnsubscribeEvent
  | Ping (time : Nat)
  | GetSystemInfo
  | GetPermissions
  | GetJavaList (java_list : List JavaInfo)
  | GetDirectoryInfo
  | GetFileInfo
  | FileUploadRequest (file_id : Uuid)
  | FileUploadChunk (done : Bool) (received : Nat)
  | FileUploadCancel
  | FileDownloadRequest (file_id : Uuid) (size : Nat) (sha1 : String)
  | FileDownloadRange (content : String)
  | FileDownloadClose
  | AddInstance
  | RemoveInstance
  | StartInstance
  | StopInstance
  | KillInstance
  | SendToInstance
  | GetInstanceReport
  | GetAllReports
deriving DecidableEq

/-- `ActionRequest`. -/
structure ActionRequest where
  parameters : ActionParameters
  id : Uuid
deriving DecidableEq

/-- `ActionResponse`. -/
structure ActionResponse where
  status : ActionStatus
  data : ActionResults
  retcode : Retcode
  id : Uuid
deriving DecidableEq

/-- `ProtocolV1::err` (src/daemon/src/protocols/v1/protocol.rs lines 178-185). -/
def err (retcode : Retcode) (id : Uuid) : ActionResponse :=
  ⟨ActionStatus.error, ActionResults.ActionError, retcode, id⟩

/-- `ProtocolV1::ok` (lines 186-193). -/
def ok (data : ActionResults) (id : Uuid) : ActionResponse :=
  ⟨ActionStatus.ok, data, OK, id⟩

/-- Which actions `ProtocolV1::handle_request`'s `match` actually dispatches;
the remaining arms fall into `_ => todo!()` and panic. -/
def dispatched : ActionParameters → Bool
  | .Ping => true
  | .GetJavaList => true
  | .FileUploadRequest _ _ _ _ => true
  | .FileUploadChunk _ _ _ => true
  | .FileUploadChunkRaw _ _ _ => true
  | .FileUploadCancel _ => true
  | .FileDownloadRequest _ => true
  | .FileDownloadRange _ _ => true
  | .FileDownloadClose _ => true
  | _ => false

/--
`ProtocolV1::handle_request` (protocol.rs lines 126-176).  The per-action
handlers touch the filesystem, so their outcome is abstracted by `dispatch`;
the response assembly is the source's: `Self::ok(response, request.id)` on
success and `Self::err(REQUEST_ERROR.with_message(..), Uuid::nil())` on a
handler error.  `none` models the `todo!()` panic of the unimplemented arms.
-/
def handle_request (dispatch : ActionParameters → Except String ActionResults)
    (request : ActionRequest) : Option ActionResponse :=
  if dispatched request.parameters then
    some (match dispatch request.parameters with
      | .ok response => ok response request.id
      | .error e => err (REQUEST_ERROR.with_message e) Uuid.nil)
  else none

/-- `ProtocolV1::process_text_request` (lines 27-35): JSON parsing is
abstracted by `parse`; a parse failure yields the
`Self::err(BAD_REQUEST, Uuid::nil())` response, as in the source. -/
def process_text_request (parse : String → Option ActionRequest)
    (raw : String) : Except ActionResponse ActionRequest :=
  match parse raw with
  | some req => .ok req
  | none => .error (err BAD_REQUEST Uuid.nil)

/-- `ProtocolV1::handle_text_rate_limit_exceed` (lines 90-96), up to the final
JSON serialization of the response. -/
def handle_text_rate_limit_exceed (parse : String → Option ActionRequest)
    (raw : String) : ActionResponse :=
  match process_text_request parse raw with
  | .ok req => err RATE_LIMIT_EXCEEDED req.id
  | .error resp => resp

/-- Big-endian `read_u32` from the head of the input
(`tokio::io::AsyncReadExt::read_u32` on the cursor): fails on fewer than
4 bytes; on success the cursor is at position 4. -/
def readBeU32 : List Nat → Option Nat
  | b0 :: b1 :: b2 :: b3 :: _ => some ((b0 <<< 24) ||| (b1 <<< 16) ||| (b2 <<< 8) ||| b3)
  | _ => none

/-- Unsigned LEB128 (`varint_rs::VarintReader::read_usize_varint`) from a
byte list: returns the value and the number of bytes consumed, `none` on end
of input. -/
def readVarint : List Nat → Nat → Nat → Option (Nat × Nat)
  | [], _, _ => none
  | byte :: rest, shift, acc =>
    let acc := acc ||| ((byte % 128) <<< shift)
    if byte < 128 then some (acc, 1)
    else (readVarint rest (shift + 7) acc).map fun r => (r.1, r.2 + 1)

/-- `&raw[a..b]` on a byte list (defined only where Rust would not panic). -/
def sliceBytes (raw : List Nat) (a b : Nat) : List Nat :=
  (raw.drop a).take (b - a)

/-- The attachment substitution of `process_bin_request` (lines 65-76). -/
def substAttachment (p : ActionParameters) (attachment : List Nat) :
    ActionParameters :=
  match p with
  | .FileUploadChunkRaw file_id offset _ =>
      .FileUploadChunkRaw file_id offset (some attachment)
  | v => v

/--
`ProtocolV1::process_bin_request` (protocol.rs lines 37-79), with JSON body
parsing abstracted by `parse`.  The outer `Option` models panics: the source
takes `&raw[start_pos + body_length .. start_pos + body_length +
attachment_length]` with attacker-controlled varint lengths, which panics
(`none`) whenever the upper bound exceeds the input's length.  Header read
failures and a wrong magic produce the `BAD_REQUEST` response, as in the
source.
-/
def process_bin_request (parse : List Nat → Option ActionRequest)
    (raw : List Nat) : Option (Except ActionResponse ActionRequest) :=
  match readBeU32 raw with
  | none => some (.error (err BAD_REQUEST Uuid.nil))
  | some magic =>
    if magic ≠ 0x2cbb then some (.error (err BAD_REQUEST Uuid.nil))
    else
      match readVarint (raw.drop 4) 0 0 with
      | none => some (.error (err BAD_REQUEST Uuid.nil))
      | some (body_length, n1) =>
        match readVarint (raw.drop (4 + n1)) 0 0 with
        | none => some (.error (err BAD_REQUEST Uuid.nil))
        | some (attachment_length, n2) =>
          let start_pos := 4 + n1 + n2
          if start_pos + body_length + attachment_length > raw.length then none
          else
            let attachment := sliceBytes raw (start_pos + body_length)
              (start_pos + body_length + attachment_length)
            match parse (sliceBytes raw start_pos (start_pos + body_length)) with
            | none => some (.error (err BAD_REQUEST Uuid.nil))
            | some req =>
              some (.ok { req with
                parameters := substAttachment req.parameters attachment })

/-- The exact condition under which `process_bin_request` panics: the header
parses (good magic, two complete varints) but the declared body +
attachment lengths reach past the end of the input. -/
def binSliceOob (raw : List Nat) : Bool :=
  match readBeU32 raw with
  | none => false
  | some magic =>
    if magic ≠ 0x2cbb then false
    else
      match readVarint (raw.drop 4) 0 0 with
      | none => false
      | some (body_length, n1) =>
        match readVarint (raw.drop (4 + n1)) 0 0 with
        | none => false
        | some (attachment_length, n2) =>
          decide (4 + n1 + n2 + body_length + attachment_length > raw.length)

end ProtocolV1

namespace TaskPool

/--
Abstract state of one connection's `TaskPool` (src/daemon/src/utils/
task_pool.rs): `total` is the `total_workers` atomic; the spawned workers are
classified as not yet at their receive point (`spawning`), blocked in
`task_rx.recv()` (`waiting`), or running a task (`running`).
-/
structure PoolState where
  total : Nat
  spawning : Nat
  waiting : Nat
  running : Nat
deriving DecidableEq

/-- The atomic events of the pool.  `casSpawn` is the successful
`compare_exchange` in `ensure_workers` (lines 54-71): it can only move
`total_workers` from a value it observed — hence the current value — to that
value plus one, and only under the guard `total_workers < max_workers`; the
model omits the additional `active == total` conjunct, which only makes
spawning rarer.  The remaining events follow the worker loop (lines 80-107):
a spawned worker reaches its receive point, receives a task, finishes one,
exits idle (recv error or idle timeout) or exits on a closed output channel —
every exit path runs `total_workers.fetch_sub(1)`. -/
inductive PoolEvent where
  | casSpawn
  | workerEnter
  | pickupTask
  | finishTask
  | exitIdle
  | exitOnSinkClosed
deriving DecidableEq

/-- One interleaving step; `none` when the event's guard does not hold. -/
def step (max_workers : Nat) (st : PoolState) : PoolEvent → Option PoolState
  | .casSpawn =>
    if st.total < max_workers then
      some { st with total := st.total + 1, spawning := st.spawning + 1 }
    else none
  | .workerEnter =>
    if st.spawning > 0 then
      some { st with spawning := st.spawning - 1, waiting := st.waiting + 1 }
    else none
  | .pickupTask =>
    if st.waiting > 0 then
      some { st with waiting := st.waiting - 1, running := st.running + 1 }
    else none
  | .finishTask =>
    if st.running > 0 then
      some { st with running := st.running - 1, waiting := st.waiting + 1 }
    else none
  | .exitIdle =>
    if st.waiting > 0 then
      some { st with waiting := st.waiting - 1, total := st.total - 1 }
    else none
  | .exitOnSinkClosed =>
    if st.running > 0 then
      some { st with running := st.running - 1, total := st.total - 1 }
    else none

/-- Run a schedule of events from a state. -/
def run (max_workers : Nat) (st : PoolState) :
    List PoolEvent → Option PoolState
  | [] => some st
  | ev :: rest =>
    match step max_workers st ev with
    | none => none
    | some st' => run max_workers st' rest

/-- The pool's initial state: both atomics zero, no workers. -/
def initPool : PoolState := ⟨0, 0, 0, 0⟩

end TaskPool

namespace U64Remain

theorem mapInsert_cons_of_lt {s k : Nat} (h : s < k) (e v : Nat) (m : Remains) :
    mapInsert ((s, e) :: m) k v = (s, e) :: mapInsert m k v := by
  have h1 : ¬k < s := by omega
  have h2 : ¬k = s := by omega
  simp [mapInsert, h1, h2]

theorem mapInsert_head (s e v : Nat) (m : Remains) :
    mapInsert ((s, e) :: m) s v = (s, v) :: m := by
  simp [mapInsert]

theorem mapInsert_all_gt {k : Nat} {m : Remains} (h : ∀ p ∈ m, k < p.1)
    (v : Nat) : mapInsert m k v = (k, v) :: m := by
  cases m with
  | nil => simp [mapInsert]
  | cons p rest =>
    obtain ⟨s, e⟩ := p
    have hs : k < s := h (s, e) (by simp)
    simp [mapInsert, hs]

theorem mapRemove_cons_self (s e : Nat) (m : Remains) :
    mapRemove ((s, e) :: m) s = m := by
  simp [mapRemove]

theorem mapRemove_cons_of_ne {k s : Nat} (h : k ≠ s) (e : Nat) (m : Remains) :
    mapRemove ((s, e) :: m) k = (s, e) :: mapRemove m k := by
  simp [mapRemove, h]

theorem foldl_mapRemove_cons_ne {ks : List Nat} {s : Nat}
    (h : ∀ k ∈ ks, k ≠ s) (e : Nat) (m : Remains) :
    ks.foldl mapRemove ((s, e) :: m) = (s, e) :: ks.foldl mapRemove m := by
  induction ks generalizing m with
  | nil => rfl
  | cons k ks ih =>
    simp only [List.foldl_cons]
    rw [mapRemove_cons_of_ne (h k (by simp)) e m]
    exact ih (fun k hk => h k (by simp [hk])) (mapRemove m k)

theorem reduceLoop_eq_walk (a b : Nat) (rest : List (Nat × Nat)) :
    ∀ (m : Remains) (tr : List Nat),
      reduceLoop a b rest m tr =
        ((walk a b rest).apply a b m, tr ++ (walk a b rest).marks) := by
  induction rest with
  | nil => intro m tr; simp [reduceLoop, walk, Outcome.apply, Outcome.marks]
  | cons p rest ih =>
    obtain ⟨s, e⟩ := p
    intro m tr
    by_cases h1 : a ≤ s ∧ b ≥ e
    · simp only [reduceLoop, walk, if_pos h1]
      rw [ih]
      cases hw : walk a b rest <;>
        simp [Outcome.apply, Outcome.marks, Outcome.addMark]
    · by_cases h2 : a > s ∧ b < e
      · simp only [reduceLoop, walk, if_neg h1, if_pos h2, Outcome.apply,
          Outcome.marks]
        simp
      · by_cases h3 : s < a ∧ a < e
        · simp only [reduceLoop, walk, if_neg h1, if_neg h2, if_pos h3,
            Outcome.apply, Outcome.marks]
          simp
        · by_cases h4 : s < b ∧ b < e
          · simp only [reduceLoop, walk, if_neg h1, if_neg h2, if_neg h3,
              if_pos h4, Outcome.apply, Outcome.marks]
            simp
          · simp only [reduceLoop, walk, if_neg h1, if_neg h2, if_neg h3, if_neg h4]
            exact ih m tr

theorem reduce_eq_walk (a b : Nat) (m : Remains) :
    reduce a b m =
      (walk a b m).marks.foldl mapRemove ((walk a b m).apply a b m) := by
  unfold reduce
  rw [reduceLoop_eq_walk]
  simp

theorem walk_marks_mem (a b : Nat) (l : List (Nat × Nat)) :
    ∀ k ∈ (walk a b l).marks, ∃ v, (k, v) ∈ l := by
  induction l with
  | nil => simp [walk, Outcome.marks]
  | cons p rest ih =>
    obtain ⟨s, e⟩ := p
    by_cases h1 : a ≤ s ∧ b ≥ e
    · intro k hk
      simp only [walk, if_pos h1] at hk
      cases hw : walk a b rest <;> rw [hw] at hk <;>
        simp only [Outcome.addMark, Outcome.marks, List.mem_cons] at hk <;>
        rcases hk with rfl | hk
      · exact ⟨e, by simp⟩
      · obtain ⟨v, hv⟩ := ih k (by rw [hw]; exact hk)
        exact ⟨v, by simp [hv]⟩
      · exact ⟨e, by simp⟩
      · obtain ⟨v, hv⟩ := ih k (by rw [hw]; simpa [Outcome.marks] using hk)
        exact ⟨v, by simp [hv]⟩
      · exact ⟨e, by simp⟩
      · obtain ⟨v, hv⟩ := ih k (by rw [hw]; simpa [Outcome.marks] using hk)
        exact ⟨v, by simp [hv]⟩
      · exact ⟨e, by simp⟩
      · obtain ⟨v, hv⟩ := ih k (by rw [hw]; simpa [Outcome.marks] using hk)
        exact ⟨v, by simp [hv]⟩
    · by_cases h2 : a > s ∧ b < e
      · simp only [walk, if_neg h1, if_pos h2, Outcome.marks]
        simp
      · by_cases h3 : s < a ∧ a < e
        · simp only [walk, if_neg h1, if_neg h2, if_pos h3, Outcome.marks]
          simp
        · by_cases h4 : s < b ∧ b < e
          · simp only [walk, if_neg h1, if_neg h2, if_neg h3, if_pos h4,
              Outcome.marks]
            simp
          · intro k hk
            simp only [walk, if_neg h1, if_neg h2, if_neg h3, if_neg h4] at hk
            obtain ⟨v, hv⟩ := ih k hk
            exact ⟨v, by simp [hv]⟩

theorem walk_case2_spec (a b : Nat) (l : List (Nat × Nat)) (ms : List Nat)
    (s' e' : Nat) (hw : walk a b l = .case2 ms s' e') :
    (s', e') ∈ l ∧ a > s' ∧ b < e' := by
  induction l generalizing ms with
  | nil => simp [walk] at hw
  | cons p rest ih =>
    obtain ⟨s, e⟩ := p
    by_cases h1 : a ≤ s ∧ b ≥ e
    · simp only [walk, if_pos h1] at hw
      cases hw2 : walk a b rest <;> rw [hw2] at hw <;>
        simp_all [Outcome.addMark]
    · by_cases h2 : a > s ∧ b < e
      · simp only [walk, if_neg h1, if_pos h2, Outcome.case2.injEq] at hw
        obtain ⟨_, rfl, rfl⟩ := hw
        exact ⟨by simp, h2⟩
      · by_cases h3 : s < a ∧ a < e
        · simp only [walk, if_neg h1, if_neg h2, if_pos h3] at hw
          exact Outcome.noConfusion hw
        · by_cases h4 : s < b ∧ b < e
          · simp only [walk, if_neg h1, if_neg h2, if_neg h3, if_pos h4] at hw
            exact Outcome.noConfusion hw
          · simp only [walk, if_neg h1, if_neg h2, if_neg h3, if_neg h4] at hw
            obtain ⟨hmem, h⟩ := ih _ hw
            exact ⟨by simp [hmem], h⟩

theorem walk_case3_spec (a b : Nat) (l : List (Nat × Nat)) (ms : List Nat)
    (s' e' : Nat) (hw : walk a b l = .case3 ms s' e') :
    (s', e') ∈ l ∧ s' < a ∧ a < e' := by
  induction l generalizing ms with
  | nil => simp [walk] at hw
  | cons p rest ih =>
    obtain ⟨s, e⟩ := p
    by_cases h1 : a ≤ s ∧ b ≥ e
    · simp only [walk, if_pos h1] at hw
      cases hw2 : walk a b rest <;> rw [hw2] at hw <;>
        simp_all [Outcome.addMark]
    · by_cases h2 : a > s ∧ b < e
      · simp only [walk, if_neg h1, if_pos h2] at hw
        exact Outcome.noConfusion hw
      · by_cases h3 : s < a ∧ a < e
        · simp only [walk, if_neg h1, if_neg h2, if_pos h3,
            Outcome.case3.injEq] at hw
          obtain ⟨_, rfl, rfl⟩ := hw
          exact ⟨by simp, h3⟩
        · by_cases h4 : s < b ∧ b < e
          · simp only [walk, if_neg h1, if_neg h2, if_neg h3, if_pos h4] at hw
            exact Outcome.noConfusion hw
          · simp only [walk, if_neg h1, if_neg h2, if_neg h3, if_neg h4] at hw
            obtain ⟨hmem, h⟩ := ih _ hw
            exact ⟨by simp [hmem], h⟩

theorem walk_case4_spec (a b : Nat) (l : List (Nat × Nat)) (ms : List Nat)
    (s' e' : Nat) (hw : walk a b l = .case4 ms s' e') :
    (s', e') ∈ l ∧ s' < b ∧ b < e' := by
  induction l generalizing ms with
  | nil => simp [walk] at hw
  | cons p rest ih =>
    obtain ⟨s, e⟩ := p
    by_cases h1 : a ≤ s ∧ b ≥ e
    · simp only [walk, if_pos h1] at hw
      cases hw2 : walk a b rest <;> rw [hw2] at hw <;>
        simp_all [Outcome.addMark]
    · by_cases h2 : a > s ∧ b < e
      · simp only [walk, if_neg h1, if_pos h2] at hw
        exact Outcome.noConfusion hw
      · by_cases h3 : s < a ∧ a < e
        · simp only [walk, if_neg h1, if_neg h2, if_pos h3] at hw
          exact Outcome.noConfusion hw
        · by_cases h4 : s < b ∧ b < e
          · simp only [walk, if_neg h1, if_neg h2, if_neg h3, if_pos h4,
              Outcome.case4.injEq] at hw
            obtain ⟨_, rfl, rfl⟩ := hw
            exact ⟨by simp, h4⟩
          · simp only [walk, if_neg h1, if_neg h2, if_neg h3, if_neg h4] at hw
            obtain ⟨hmem, h⟩ := ih _ hw
            exact ⟨by simp [hmem], h⟩

theorem addMark_marks (k : Nat) (o : Outcome) :
    (o.addMark k).marks = k :: o.marks := by
  cases o <;> rfl

theorem addMark_apply (a b k : Nat) (m : Remains) (o : Outcome) :
    Outcome.apply a b m (o.addMark k) = Outcome.apply a b m o := by
  cases o <;> rfl

theorem apply_cons {a b s e : Nat} {rest : Remains} {o : Outcome}
    (hab : a ≤ b) (hse : s < e) (hkeys : ∀ q ∈ rest, e ≤ q.1)
    (ho : walk a b rest = o) :
    Outcome.apply a b ((s, e) :: rest) o = (s, e) :: Outcome.apply a b rest o := by
  cases o with
  | clean ms => rfl
  | case2 ms s' e' =>
    obtain ⟨hmem, hgt, hlt⟩ := walk_case2_spec a b rest ms s' e' ho
    have hs' : s < s' := lt_of_lt_of_le hse (hkeys _ hmem)
    have hb : s < b := by omega
    simp only [Outcome.apply]
    rw [mapInsert_cons_of_lt hb, mapInsert_cons_of_lt hs']
  | case3 ms s' e' =>
    obtain ⟨hmem, h1, h2⟩ := walk_case3_spec a b rest ms s' e' ho
    have hs' : s < s' := lt_of_lt_of_le hse (hkeys _ hmem)
    simp only [Outcome.apply]
    rw [mapInsert_cons_of_lt hs']
  | case4 ms s' e' =>
    obtain ⟨hmem, h1, h2⟩ := walk_case4_spec a b rest ms s' e' ho
    have hs' : s < s' := lt_of_lt_of_le hse (hkeys _ hmem)
    have hb : s < b := by omega
    simp only [Outcome.apply]
    rw [mapInsert_cons_of_lt hb, mapRemove_cons_of_ne (by omega : s' ≠ s)]

/-- On a well-formed state, the faithful `reduce` agrees with the clean
structural recursion `reduceImpl`. -/
theorem reduce_eq_reduceImpl (a b : Nat) (hab : a ≤ b) :
    ∀ (m : Remains), Inv m → reduce a b m = reduceImpl a b m := by
  intro m
  induction m with
  | nil => intro _; rfl
  | cons p rest ih =>
    obtain ⟨s, e⟩ := p
    intro hInv
    obtain ⟨hne, hpw⟩ := hInv
    have hse : s < e := hne (s, e) (by simp)
    have hkeys : ∀ q ∈ rest, e ≤ q.1 := fun q hq =>
      (List.pairwise_cons.mp hpw).1 q hq
    have hInvRest : Inv rest :=
      ⟨fun p hp => hne p (by simp [hp]), (List.pairwise_cons.mp hpw).2⟩
    have ihr := ih hInvRest
    rw [reduce_eq_walk]
    by_cases h1 : a ≤ s ∧ b ≥ e
    · simp only [walk, if_pos h1]
      rw [addMark_marks, addMark_apply, apply_cons hab hse hkeys rfl]
      simp only [List.foldl_cons, mapRemove_cons_self]
      rw [← reduce_eq_walk, ihr]
      simp [reduceImpl, h1]
    · by_cases h2 : a > s ∧ b < e
      · simp only [walk, if_neg h1, if_pos h2, Outcome.apply, Outcome.marks,
          List.foldl_nil]
        have hb : s < b := by omega
        rw [mapInsert_cons_of_lt hb,
          mapInsert_all_gt (fun q hq => lt_of_lt_of_le h2.2 (hkeys q hq)) e,
          mapInsert_head]
        simp [reduceImpl, h1, h2]
      · by_cases h3 : s < a ∧ a < e
        · simp only [walk, if_neg h1, if_neg h2, if_pos h3, Outcome.apply,
            Outcome.marks, List.foldl_nil]
          rw [mapInsert_head]
          have hbe : ¬b < e := fun hlt => h2 ⟨h3.1, hlt⟩
          simp [reduceImpl, h1, h2, h3, hbe]
        · by_cases h4 : s < b ∧ b < e
          · simp only [walk, if_neg h1, if_neg h2, if_neg h3, if_pos h4,
              Outcome.apply, Outcome.marks, List.foldl_nil]
            rw [mapInsert_cons_of_lt h4.1,
              mapInsert_all_gt (fun q hq => lt_of_lt_of_le h4.2 (hkeys q hq)) e,
              mapRemove_cons_self]
            have hsa : ¬s < a := fun hlt => h3 ⟨hlt, by omega⟩
            simp [reduceImpl, h1, h2, h3, h4, hsa]
          · simp only [walk, if_neg h1, if_neg h2, if_neg h3, if_neg h4]
            rw [apply_cons hab hse hkeys rfl]
            rw [foldl_mapRemove_cons_ne (fun k hk => by
              obtain ⟨v, hv⟩ := walk_marks_mem a b rest k hk
              have := hkeys _ hv
              omega)]
            rw [← reduce_eq_walk, ihr]
            simp [reduceImpl, h1, h2, h3, h4]

theorem covers_cons (s e x : Nat) (m : Remains) :
    covers ((s, e) :: m) x = ((decide (s ≤ x) && decide (x < e)) || covers m x) := by
  simp [covers]

theorem covers_iff (m : Remains) (x : Nat) :
    covers m x = true ↔ ∃ p ∈ m, p.1 ≤ x ∧ x < p.2 := by
  simp [covers]

/-- When no stored interval meets `[a, b)`, no loop branch fires and
`reduceImpl` is the identity. -/
theorem reduceImpl_of_no_overlap {a b : Nat} (hab : a ≤ b) :
    ∀ {m : Remains}, (∀ p ∈ m, p.1 < p.2) →
      (∀ p ∈ m, ¬(p.1 < b ∧ a < p.2)) → reduceImpl a b m = m := by
  intro m
  induction m with
  | nil => intro _ _; rfl
  | cons p rest ih =>
    obtain ⟨s, e⟩ := p
    intro hne hov
    have hse : s < e := hne (s, e) (by simp)
    have hhead : ¬(s < b ∧ a < e) := hov (s, e) (by simp)
    have h1 : ¬(a ≤ s ∧ b ≥ e) := by omega
    have h2 : ¬(a > s ∧ b < e) := by omega
    have h3 : ¬(s < a ∧ a < e) := by omega
    have h4 : ¬(s < b ∧ b < e) := by omega
    simp only [reduceImpl, if_neg h1, if_neg h2, if_neg h3, if_neg h4]
    rw [ih (fun p hp => hne p (by simp [hp])) (fun p hp => hov p (by simp [hp]))]

/-- On a well-formed state, when `[a, b)` meets at most one stored interval,
`reduceImpl` removes exactly the coverage of `[a, b)`. -/
theorem covers_reduceImpl_iff {a b : Nat} (hab : a ≤ b) :
    ∀ {m : Remains}, Inv m → countOverlap m a b ≤ 1 → ∀ x,
      (covers (reduceImpl a b m) x = true ↔
        (covers m x = true ∧ ¬(a ≤ x ∧ x < b))) := by
  intro m
  induction m with
  | nil => intro _ _ x; simp [reduceImpl, covers]
  | cons p rest ih =>
    obtain ⟨s, e⟩ := p
    intro hInv hcnt x
    obtain ⟨hne, hpw⟩ := hInv
    have hse : s < e := hne (s, e) (by simp)
    have hInvRest : Inv rest :=
      ⟨fun p hp => hne p (by simp [hp]), (List.pairwise_cons.mp hpw).2⟩
    by_cases hov : s < b ∧ a < e
    · -- the head interval meets [a, b): every other interval does not
      have hovB : overlapsB a b (s, e) = true := by
        simp [overlapsB]; omega
      have hcnt0 : rest.countP (overlapsB a b) = 0 := by
        simp only [countOverlap, List.countP_cons, hovB] at hcnt
        rw [if_pos trivial] at hcnt
        omega
      have hrest0 : ∀ p ∈ rest, ¬(p.1 < b ∧ a < p.2) := by
        intro p hp hov2
        have h0 := List.countP_eq_zero.mp hcnt0 p hp
        simp [overlapsB] at h0
        omega
      have hrestid : reduceImpl a b rest = rest :=
        reduceImpl_of_no_overlap hab hInvRest.1 hrest0
      have hCnr : covers rest x = true → ¬(a ≤ x ∧ x < b) := by
        intro hc hr
        obtain ⟨p, hp, hp1, hp2⟩ := (covers_iff rest x).mp hc
        exact hrest0 p hp ⟨by omega, by omega⟩
      by_cases h1 : a ≤ s ∧ b ≥ e
      · simp only [reduceImpl, if_pos h1, hrestid, covers_cons]
        have hhr : (decide (s ≤ x) && decide (x < e)) = true → (a ≤ x ∧ x < b) := by
          intro h
          simp at h
          omega
        constructor
        · intro hc
          exact ⟨by simp [hc], hCnr hc⟩
        · rintro ⟨hc, hr⟩
          simp only [Bool.or_eq_true] at hc
          rcases hc with hc | hc
          · exact absurd (hhr hc) hr
          · exact hc
      · by_cases h2 : a > s ∧ b < e
        · simp only [reduceImpl, if_neg h1, if_pos h2, covers_cons,
            Bool.or_eq_true]
          constructor
          · rintro (hc | hc | hc)
            · simp only [Bool.and_eq_true, decide_eq_true_eq] at hc ⊢
              exact ⟨Or.inl (by omega), by omega⟩
            · simp only [Bool.and_eq_true, decide_eq_true_eq] at hc ⊢
              exact ⟨Or.inl (by omega), by omega⟩
            · exact ⟨Or.inr hc, hCnr hc⟩
          · rintro ⟨hc | hc, hr⟩
            · simp only [Bool.and_eq_true, decide_eq_true_eq] at hc ⊢
              by_cases hx : x < a
              · exact Or.inl ⟨by omega, by omega⟩
              · exact Or.inr (Or.inl ⟨by omega, by omega⟩)
            · exact Or.inr (Or.inr hc)
        · by_cases h3 : s < a ∧ a < e
          · have hbe : e ≤ b := by omega
            simp only [reduceImpl, if_neg h1, if_neg h2, if_pos h3, covers_cons,
              Bool.or_eq_true]
            constructor
            · rintro (hc | hc)
              · simp only [Bool.and_eq_true, decide_eq_true_eq] at hc ⊢
                exact ⟨Or.inl (by omega), by omega⟩
              · exact ⟨Or.inr hc, hCnr hc⟩
            · rintro ⟨hc | hc, hr⟩
              · simp only [Bool.and_eq_true, decide_eq_true_eq] at hc ⊢
                exact Or.inl ⟨by omega, by omega⟩
              · exact Or.inr hc
          · by_cases h4 : s < b ∧ b < e
            · have has : a ≤ s := by omega
              simp only [reduceImpl, if_neg h1, if_neg h2, if_neg h3, if_pos h4,
                covers_cons, Bool.or_eq_true]
              constructor
              · rintro (hc | hc)
                · simp only [Bool.and_eq_true, decide_eq_true_eq] at hc ⊢
                  exact ⟨Or.inl (by omega), by omega⟩
                · exact ⟨Or.inr hc, hCnr hc⟩
              · rintro ⟨hc | hc, hr⟩
                · simp only [Bool.and_eq_true, decide_eq_true_eq] at hc ⊢
                  exact Or.inl ⟨by omega, by omega⟩
                · exact Or.inr hc
            · exact absurd hov (by omega)
    · -- the head interval misses [a, b): no branch fires on it
      have h1 : ¬(a ≤ s ∧ b ≥ e) := by omega
      have h2 : ¬(a > s ∧ b < e) := by omega
      have h3 : ¬(s < a ∧ a < e) := by omega
      have h4 : ¬(s < b ∧ b < e) := by omega
      have hovB : overlapsB a b (s, e) = false := by
        simp [overlapsB]; omega
      have hcnt2 : countOverlap rest a b ≤ 1 := by
        simp only [countOverlap, List.countP_cons, hovB] at hcnt ⊢
        omega
      have hhr : (decide (s ≤ x) && decide (x < e)) = true → ¬(a ≤ x ∧ x < b) := by
        intro h hr
        simp at h
        omega
      simp only [reduceImpl, if_neg h1, if_neg h2, if_neg h3, if_neg h4,
        covers_cons, Bool.or_eq_true]
      constructor
      · rintro (hc | hc)
        · exact ⟨Or.inl hc, hhr hc⟩
        · obtain ⟨h, hr⟩ := (ih hInvRest hcnt2 x).mp hc
          exact ⟨Or.inr h, hr⟩
      · rintro ⟨hc | hc, hr⟩
        · exact Or.inl hc
        · exact Or.inr ((ih hInvRest hcnt2 x).mpr ⟨hc, hr⟩)

/-- Every interval of `reduceImpl a b m` starts no earlier than some interval
of `m`. -/
theorem reduceImpl_keys {a b : Nat} (hab : a ≤ b) :
    ∀ {m : Remains}, ∀ q ∈ reduceImpl a b m, ∃ p ∈ m, p.1 ≤ q.1 := by
  intro m
  induction m with
  | nil => intro q hq; simp [reduceImpl] at hq
  | cons p rest ih =>
    obtain ⟨s, e⟩ := p
    intro q hq
    simp only [reduceImpl] at hq
    split_ifs at hq with h1 h2 h3 h4
    · obtain ⟨p, hp, hle⟩ := ih q hq
      exact ⟨p, by simp [hp], hle⟩
    · simp only [List.mem_cons] at hq
      rcases hq with rfl | rfl | hq
      · exact ⟨(s, e), by simp, le_refl s⟩
      · exact ⟨(s, e), by simp, by omega⟩
      · exact ⟨q, by simp [hq], le_refl _⟩
    · simp only [List.mem_cons] at hq
      rcases hq with rfl | hq
      · exact ⟨(s, e), by simp, le_refl s⟩
      · exact ⟨q, by simp [hq], le_refl _⟩
    · simp only [List.mem_cons] at hq
      rcases hq with rfl | hq
      · exact ⟨(s, e), by simp, by omega⟩
      · exact ⟨q, by simp [hq], le_refl _⟩
    · simp only [List.mem_cons] at hq
      rcases hq with rfl | hq
      · exact ⟨(s, e), by simp, le_refl s⟩
      · obtain ⟨p, hp, hle⟩ := ih q hq
        exact ⟨p, by simp [hp], hle⟩

/-- Every interval of `reduceImpl a b m` ends within the original bound. -/
theorem reduceImpl_ends {a b N : Nat} (hab : a ≤ b) :
    ∀ {m : Remains}, (∀ p ∈ m, p.2 ≤ N) → ∀ q ∈ reduceImpl a b m, q.2 ≤ N := by
  intro m
  induction m with
  | nil => intro _ q hq; simp [reduceImpl] at hq
  | cons p rest ih =>
    obtain ⟨s, e⟩ := p
    intro hbd q hq
    have heN : e ≤ N := hbd (s, e) (by simp)
    have hbdRest : ∀ p ∈ rest, p.2 ≤ N := fun p hp => hbd p (by simp [hp])
    simp only [reduceImpl] at hq
    split_ifs at hq with h1 h2 h3 h4
    · exact ih hbdRest q hq
    · simp only [List.mem_cons] at hq
      rcases hq with rfl | rfl | hq
      · omega
      · omega
      · exact hbdRest q hq
    · simp only [List.mem_cons] at hq
      rcases hq with rfl | hq
      · omega
      · exact hbdRest q hq
    · simp only [List.mem_cons] at hq
      rcases hq with rfl | hq
      · omega
      · exact hbdRest q hq
    · simp only [List.mem_cons] at hq
      rcases hq with rfl | hq
      · exact heN
      · exact ih hbdRest q hq

/-- `reduceImpl` preserves well-formedness. -/
theorem Inv_reduceImpl {a b : Nat} (hab : a ≤ b) :
    ∀ {m : Remains}, Inv m → Inv (reduceImpl a b m) := by
  intro m
  induction m with
  | nil => intro h; simpa [reduceImpl] using h
  | cons p rest ih =>
    obtain ⟨s, e⟩ := p
    intro hInv
    obtain ⟨hne, hpw⟩ := hInv
    have hse : s < e := hne (s, e) (by simp)
    have hkeys : ∀ q ∈ rest, e ≤ q.1 := fun q hq =>
      (List.pairwise_cons.mp hpw).1 q hq
    have hInvRest : Inv rest :=
      ⟨fun p hp => hne p (by simp [hp]), (List.pairwise_cons.mp hpw).2⟩
    simp only [reduceImpl]
    split_ifs with h1 h2 h3 h4
    · exact ih hInvRest
    · refine ⟨?_, ?_⟩
      · intro p hp
        simp only [List.mem_cons] at hp
        rcases hp with rfl | rfl | hp
        · exact h2.1
        · exact h2.2
        · exact hne p (by simp [hp])
      · rw [List.pairwise_cons]
        refine ⟨?_, ?_⟩
        · intro q hq
          simp only [List.mem_cons] at hq
          rcases hq with rfl | hq
          · exact hab
          · have := hkeys q hq
            omega
        · rw [List.pairwise_cons]
          exact ⟨fun q hq => hkeys q hq, hInvRest.2⟩
    · refine ⟨?_, ?_⟩
      · intro p hp
        simp only [List.mem_cons] at hp
        rcases hp with rfl | hp
        · exact h3.1
        · exact hne p (by simp [hp])
      · rw [List.pairwise_cons]
        refine ⟨fun q hq => ?_, hInvRest.2⟩
        have := hkeys q hq
        omega
    · refine ⟨?_, ?_⟩
      · intro p hp
        simp only [List.mem_cons] at hp
        rcases hp with rfl | hp
        · exact h4.2
        · exact hne p (by simp [hp])
      · rw [List.pairwise_cons]
        exact ⟨fun q hq => hkeys q hq, hInvRest.2⟩
    · refine ⟨?_, ?_⟩
      · intro p hp
        simp only [List.mem_cons] at hp
        rcases hp with rfl | hp
        · exact hse
        · exact (ih hInvRest).1 p hp
      · rw [List.pairwise_cons]
        refine ⟨fun q hq => ?_, (ih hInvRest).2⟩
        obtain ⟨p, hp, hle⟩ := reduceImpl_keys hab q hq
        have := hkeys p hp
        omega

/-- `reduceImpl` never removes coverage outside `[a, b)` (no hypothesis on
how many intervals the range meets: this is the sound direction even for the
spanning calls the loop mishandles). -/
theorem covers_reduceImpl_keep {a b x : Nat} (hab : a ≤ b) :
    ∀ {m : Remains}, covers m x = true → (x < a ∨ b ≤ x) →
      covers (reduceImpl a b m) x = true := by
  intro m
  induction m with
  | nil => intro hc _; simp [covers] at hc
  | cons p rest ih =>
    obtain ⟨s, e⟩ := p
    intro hc hx
    rw [covers_cons, Bool.or_eq_true] at hc
    simp only [reduceImpl]
    split_ifs with h1 h2 h3 h4
    · rcases hc with hc | hc
      · simp only [Bool.and_eq_true, decide_eq_true_eq] at hc
        omega
      · exact ih hc hx
    · rw [covers_cons, covers_cons]
      rcases hc with hc | hc
      · simp only [Bool.and_eq_true, decide_eq_true_eq] at hc
        simp only [Bool.or_eq_true, Bool.and_eq_true, decide_eq_true_eq]
        omega
      · simp [hc]
    · rw [covers_cons]
      rcases hc with hc | hc
      · simp only [Bool.and_eq_true, decide_eq_true_eq] at hc
        simp only [Bool.or_eq_true, Bool.and_eq_true, decide_eq_true_eq]
        omega
      · simp [hc]
    · rw [covers_cons]
      rcases hc with hc | hc
      · simp only [Bool.and_eq_true, decide_eq_true_eq] at hc
        simp only [Bool.or_eq_true, Bool.and_eq_true, decide_eq_true_eq]
        omega
      · simp [hc]
    · rw [covers_cons]
      rcases hc with hc | hc
      · simp [hc]
      · simp [ih hc hx]

/-- On a well-formed single-overlap state, reducing twice is reducing once. -/
theorem reduceImpl_idem {a b : Nat} (hab : a ≤ b) :
    ∀ {m : Remains}, Inv m → countOverlap m a b ≤ 1 →
      reduceImpl a b (reduceImpl a b m) = reduceImpl a b m := by
  intro m
  induction m with
  | nil => intro _ _; rfl
  | cons p rest ih =>
    obtain ⟨s, e⟩ := p
    intro hInv hcnt
    obtain ⟨hne, hpw⟩ := hInv
    have hse : s < e := hne (s, e) (by simp)
    have hInvRest : Inv rest :=
      ⟨fun p hp => hne p (by simp [hp]), (List.pairwise_cons.mp hpw).2⟩
    by_cases hov : s < b ∧ a < e
    · have hovB : overlapsB a b (s, e) = true := by
        simp [overlapsB]; omega
      have hcnt0 : rest.countP (overlapsB a b) = 0 := by
        simp only [countOverlap, List.countP_cons, hovB] at hcnt
        rw [if_pos trivial] at hcnt
        omega
      have hrest0 : ∀ p ∈ rest, ¬(p.1 < b ∧ a < p.2) := by
        intro p hp hov2
        have h0 := List.countP_eq_zero.mp hcnt0 p hp
        simp [overlapsB] at h0
        omega
      have hrestid : reduceImpl a b rest = rest :=
        reduceImpl_of_no_overlap hab hInvRest.1 hrest0
      by_cases h1 : a ≤ s ∧ b ≥ e
      · rw [show reduceImpl a b ((s, e) :: rest) = rest from by
          simp only [reduceImpl, if_pos h1]; exact hrestid]
        exact hrestid
      · by_cases h2 : a > s ∧ b < e
        · rw [show reduceImpl a b ((s, e) :: rest) = (s, a) :: (b, e) :: rest
            from by simp only [reduceImpl, if_neg h1, if_pos h2]]
          have c1 : ¬(a ≤ s ∧ b ≥ a) := by omega
          have c2 : ¬(a > s ∧ b < a) := by omega
          have c3 : ¬(s < a ∧ a < a) := by omega
          have c4 : ¬(s < b ∧ b < a) := by omega
          simp only [reduceImpl, if_neg c1, if_neg c2, if_neg c3, if_neg c4]
          have d1 : ¬(a ≤ b ∧ b ≥ e) := by omega
          have d2 : ¬(a > b ∧ b < e) := by omega
          have d3 : ¬(b < a ∧ a < e) := by omega
          have d4 : ¬(b < b ∧ b < e) := by omega
          simp only [reduceImpl, if_neg d1, if_neg d2, if_neg d3, if_neg d4]
          rw [hrestid]
        · by_cases h3 : s < a ∧ a < e
          · rw [show reduceImpl a b ((s, e) :: rest) = (s, a) :: rest
              from by simp only [reduceImpl, if_neg h1, if_neg h2, if_pos h3]]
            have c1 : ¬(a ≤ s ∧ b ≥ a) := by omega
            have c2 : ¬(a > s ∧ b < a) := by omega
            have c3 : ¬(s < a ∧ a < a) := by omega
            have c4 : ¬(s < b ∧ b < a) := by omega
            simp only [reduceImpl, if_neg c1, if_neg c2, if_neg c3, if_neg c4]
            rw [hrestid]
          · by_cases h4 : s < b ∧ b < e
            · rw [show reduceImpl a b ((s, e) :: rest) = (b, e) :: rest
                from by
                  simp only [reduceImpl, if_neg h1, if_neg h2, if_neg h3,
                    if_pos h4]]
              have d1 : ¬(a ≤ b ∧ b ≥ e) := by omega
              have d2 : ¬(a > b ∧ b < e) := by omega
              have d3 : ¬(b < a ∧ a < e) := by omega
              have d4 : ¬(b < b ∧ b < e) := by omega
              simp only [reduceImpl, if_neg d1, if_neg d2, if_neg d3, if_neg d4]
              rw [hrestid]
            · exact absurd hov (by omega)
    · have h1 : ¬(a ≤ s ∧ b ≥ e) := by omega
      have h2 : ¬(a > s ∧ b < e) := by omega
      have h3 : ¬(s < a ∧ a < e) := by omega
      have h4 : ¬(s < b ∧ b < e) := by omega
      have hovB : overlapsB a b (s, e) = false := by
        simp [overlapsB]; omega
      have hcnt2 : countOverlap rest a b ≤ 1 := by
        simp only [countOverlap, List.countP_cons, hovB] at hcnt ⊢
        omega
      rw [show reduceImpl a b ((s, e) :: rest) = (s, e) :: reduceImpl a b rest
        from by simp only [reduceImpl, if_neg h1, if_neg h2, if_neg h3, if_neg h4]]
      simp only [reduceImpl, if_neg h1, if_neg h2, if_neg h3, if_neg h4]
      rw [ih hInvRest hcnt2]

/-- On a well-formed bounded state, `get_remain` counts the covered
positions below the bound. -/
theorem get_remain_eq_card {N : Nat} :
    ∀ {m : Remains}, Inv m → (∀ p ∈ m, p.2 ≤ N) →
      get_remain m = ((Finset.range N).filter fun x => covers m x = true).card := by
  intro m
  induction m with
  | nil => intro _ _; simp [get_remain, covers]
  | cons p rest ih =>
    obtain ⟨s, e⟩ := p
    intro hInv hbd
    obtain ⟨hne, hpw⟩ := hInv
    have hse : s < e := hne (s, e) (by simp)
    have hkeys : ∀ q ∈ rest, e ≤ q.1 := fun q hq =>
      (List.pairwise_cons.mp hpw).1 q hq
    have hInvRest : Inv rest :=
      ⟨fun p hp => hne p (by simp [hp]), (List.pairwise_cons.mp hpw).2⟩
    have heN : e ≤ N := hbd (s, e) (by simp)
    have hrest := ih hInvRest (fun p hp => hbd p (by simp [hp]))
    have hsplit : ((Finset.range N).filter fun x => covers ((s, e) :: rest) x = true)
        = ((Finset.range N).filter fun x => s ≤ x ∧ x < e)
          ∪ ((Finset.range N).filter fun x => covers rest x = true) := by
      ext x
      simp only [Finset.mem_filter, Finset.mem_union, Finset.mem_range,
        covers_cons, Bool.or_eq_true, Bool.and_eq_true, decide_eq_true_eq]
      tauto
    have hdisj : Disjoint ((Finset.range N).filter fun x => s ≤ x ∧ x < e)
        ((Finset.range N).filter fun x => covers rest x = true) := by
      rw [Finset.disjoint_left]
      intro x hx1 hx2
      simp only [Finset.mem_filter] at hx1 hx2
      obtain ⟨p, hp, hp1, hp2⟩ := (covers_iff rest x).mp hx2.2
      have := hkeys p hp
      omega
    have hfirst : ((Finset.range N).filter fun x => s ≤ x ∧ x < e)
        = Finset.Ico s e := by
      ext x
      simp only [Finset.mem_filter, Finset.mem_Ico, Finset.mem_range]
      omega
    have hhead : get_remain ((s, e) :: rest) = (e - s) + get_remain rest := by
      simp [get_remain]
    rw [hhead, hrest, hsplit, Finset.card_union_of_disjoint hdisj, hfirst,
      Nat.card_Ico]

theorem Inv_reduce {a b : Nat} {m : Remains} (hab : a ≤ b) (hInv : Inv m) :
    Inv (reduce a b m) := by
  rw [reduce_eq_reduceImpl a b hab m hInv]
  exact Inv_reduceImpl hab hInv

theorem covers_reduce_iff {a b : Nat} {m : Remains} (hab : a ≤ b)
    (hInv : Inv m) (hcnt : countOverlap m a b ≤ 1) (x : Nat) :
    covers (reduce a b m) x = true ↔
      (covers m x = true ∧ ¬(a ≤ x ∧ x < b)) := by
  rw [reduce_eq_reduceImpl a b hab m hInv]
  exact covers_reduceImpl_iff hab hInv hcnt x

theorem covers_reduce_keep {a b x : Nat} {m : Remains} (hab : a ≤ b)
    (hInv : Inv m) (hc : covers m x = true) (hx : x < a ∨ b ≤ x) :
    covers (reduce a b m) x = true := by
  rw [reduce_eq_reduceImpl a b hab m hInv]
  exact covers_reduceImpl_keep hab hc hx

theorem reduce_ends {a b N : Nat} {m : Remains} (hab : a ≤ b) (hInv : Inv m)
    (hbd : ∀ p ∈ m, p.2 ≤ N) : ∀ q ∈ reduce a b m, q.2 ≤ N := by
  rw [reduce_eq_reduceImpl a b hab m hInv]
  exact reduceImpl_ends hab hbd

theorem eq_nil_of_get_remain_zero {m : Remains} (hInv : Inv m)
    (h : get_remain m = 0) : m = [] := by
  cases m with
  | nil => rfl
  | cons p rest =>
    obtain ⟨s, e⟩ := p
    have hse : s < e := hInv.1 (s, e) (by simp)
    simp [get_remain] at h
    omega

theorem covers_applyCalls {calls : List (Nat × Nat)} :
    ∀ {m : Remains}, Inv m → validSeq m calls = true → ∀ x,
      (covers (applyCalls m calls) x = true ↔
        (covers m x = true ∧ coveredBy calls x = false)) := by
  induction calls with
  | nil => intro m hInv _ x; simp [applyCalls, coveredBy]
  | cons c rest ih =>
    intro m hInv hvs x
    simp only [validSeq, Bool.and_eq_true, decide_eq_true_eq] at hvs
    obtain ⟨⟨hab, hcnt⟩, hvs⟩ := hvs
    have happ : applyCalls m (c :: rest) = applyCalls (reduce c.1 c.2 m) rest := by
      simp [applyCalls]
    rw [happ, ih (Inv_reduce hab hInv) hvs x, covers_reduce_iff hab hInv hcnt x]
    have hcb : coveredBy (c :: rest) x
        = ((decide (c.1 ≤ x) && decide (x < c.2)) || coveredBy rest x) := by
      simp [coveredBy]
    have hdec : ((decide (c.1 ≤ x) && decide (x < c.2)) = false) ↔
        ¬(c.1 ≤ x ∧ x < c.2) := by
      simp
    rw [hcb, Bool.or_eq_false_iff, hdec]
    tauto

theorem applyCalls_Inv {calls : List (Nat × Nat)} :
    ∀ {m : Remains}, Inv m → validSeq m calls = true →
      Inv (applyCalls m calls) := by
  induction calls with
  | nil => intro m hInv _; simpa [applyCalls] using hInv
  | cons c rest ih =>
    intro m hInv hvs
    simp only [validSeq, Bool.and_eq_true, decide_eq_true_eq] at hvs
    obtain ⟨⟨hab, _⟩, hvs⟩ := hvs
    have happ : applyCalls m (c :: rest) = applyCalls (reduce c.1 c.2 m) rest := by
      simp [applyCalls]
    rw [happ]
    exact ih (Inv_reduce hab hInv) hvs

theorem applyCalls_ends {N : Nat} {calls : List (Nat × Nat)} :
    ∀ {m : Remains}, Inv m → validSeq m calls = true →
      (∀ p ∈ m, p.2 ≤ N) → ∀ q ∈ applyCalls m calls, q.2 ≤ N := by
  induction calls with
  | nil => intro m _ _ hbd q hq; exact hbd q (by simpa [applyCalls] using hq)
  | cons c rest ih =>
    intro m hInv hvs hbd
    simp only [validSeq, Bool.and_eq_true, decide_eq_true_eq] at hvs
    obtain ⟨⟨hab, _⟩, hvs⟩ := hvs
    have happ : applyCalls m (c :: rest) = applyCalls (reduce c.1 c.2 m) rest := by
      simp [applyCalls]
    rw [happ]
    exact ih (Inv_reduce hab hInv) hvs (reduce_ends hab hInv hbd)

theorem reduce_degenerate (a b : Nat) :
    reduce a b [(0, 0)] = [] ∨ reduce a b [(0, 0)] = [(0, 0)] := by
  rw [reduce_eq_walk]
  by_cases h : a ≤ 0 ∧ b ≥ 0
  · left
    simp only [walk, if_pos h]
    simp [Outcome.addMark, Outcome.marks, Outcome.apply, mapRemove, walk]
  · right
    have h2 : ¬(a > 0 ∧ b < 0) := by omega
    have h3 : ¬(0 < a ∧ a < 0) := by omega
    have h4 : ¬(0 < b ∧ b < 0) := by omega
    simp only [walk, if_neg h, if_neg h2, if_neg h3, if_neg h4]
    simp [Outcome.marks, Outcome.apply]

theorem applyCalls_degenerate (calls : List (Nat × Nat)) :
    ∀ m : Remains, (m = [] ∨ m = [(0, 0)]) →
      applyCalls m calls = [] ∨ applyCalls m calls = [(0, 0)] := by
  induction calls with
  | nil => intro m hm; simpa [applyCalls] using hm
  | cons c rest ih =>
    intro m hm
    have happ : applyCalls m (c :: rest) = applyCalls (reduce c.1 c.2 m) rest := by
      simp [applyCalls]
    rw [happ]
    apply ih
    rcases hm with rfl | rfl
    · left; rfl
    · exact reduce_degenerate c.1 c.2

example : get_remains (new 0 100) = [(0, 100)] := by decide
example : get_remain (new 0 100) = 100 := by decide
example : reduce 50 70 (new 0 100) = [(0, 50), (70, 100)] := by decide
example : get_remain (reduce 50 70 (new 0 100)) = 80 := by decide
example : reduce 30 40 (reduce 50 70 (new 0 100))
    = [(0, 30), (40, 50), (70, 100)] := by decide
example : reduce 0 30 (reduce 30 40 (reduce 50 70 (new 0 100)))
    = [(40, 50), (70, 100)] := by decide
example : done (reduce 0 100 (reduce 0 30 (reduce 30 40 (reduce 50 70
    (new 0 100))))) = true := by decide

/--
C4 (amended): for a tracker created by `new(0, size)` and a finite sequence
of `reduce(aᵢ, bᵢ)` calls with `aᵢ ≤ bᵢ` in which every call's range, at the
moment it is issued, meets at most one stored interval, `get_remain()`
afterwards equals `size` minus the length of the union of the `[aᵢ, bᵢ)`
intersected with `[0, size)`.  (The original claim, which also covers calls
spanning more than one stored interval, is refuted by
`c4_counterexample_spanning_reduce`.)
-/
theorem c4_remain_eq_size_sub_union (N : Nat) (calls : List (Nat × Nat))
    (h : validSeq (new 0 N) calls = true) :
    get_remain (applyCalls (new 0 N) calls)
      = N - ((Finset.range N).filter fun x => coveredBy calls x = true).card := by
  by_cases hN : N = 0
  · subst hN
    have hdeg := applyCalls_degenerate calls (new 0 0) (Or.inr rfl)
    rcases hdeg with hdeg | hdeg <;> simp [hdeg, get_remain]
  · have hInv0 : Inv (new 0 N) := by
      constructor
      · intro p hp
        simp [new] at hp
        simp [hp]
        omega
      · simp [new]
    have hbd0 : ∀ p ∈ new 0 N, p.2 ≤ N := by
      intro p hp
      simp [new] at hp
      simp [hp]
    have hInvF := applyCalls_Inv hInv0 h
    have hbdF := applyCalls_ends hInv0 h hbd0
    rw [get_remain_eq_card hInvF hbdF]
    have hpt : ∀ x ∈ Finset.range N,
        (covers (applyCalls (new 0 N) calls) x = true ↔
          coveredBy calls x = false) := by
      intro x hx
      rw [covers_applyCalls hInv0 h x]
      simp only [Finset.mem_range] at hx
      have hcov : covers (new 0 N) x = true := by
        simp [new, covers]
        omega
      rw [hcov]
      tauto
    rw [Finset.filter_congr hpt]
    have hneg : ((Finset.range N).filter fun x => coveredBy calls x = false)
        = ((Finset.range N).filter fun x => ¬(coveredBy calls x = true)) := by
      apply Finset.filter_congr
      intro x _
      simp
    have hadd : ((Finset.range N).filter fun x => coveredBy calls x = true).card
        + ((Finset.range N).filter fun x => ¬(coveredBy calls x = true)).card
        = N := by
      rw [Finset.filter_card_add_filter_neg_card_eq_card]
      exact Finset.card_range N
    rw [hneg]
    omega

/-- C4 witness: a concrete two-call sequence on `new(0, 10)`. -/
theorem c4_remain_eq_size_sub_union_witness :
    (validSeq (new 0 10) [(2, 5), (7, 9)] = true) ∧
      get_remain (applyCalls (new 0 10) [(2, 5), (7, 9)])
        = 10 - ((Finset.range 10).filter
            fun x => coveredBy [(2, 5), (7, 9)] x = true).card :=
  ⟨by decide, c4_remain_eq_size_sub_union 10 [(2, 5), (7, 9)] (by decide)⟩

/--
C4 counterexample: on `new(0, 10)`, after `reduce(5, 7)` the state is
`[(0, 5), (7, 10)]`; the call `reduce(4, 8)` spans both stored intervals, but
the loop trims only the first one and breaks, leaving `[(0, 4), (7, 10)]`
(`get_remain = 7`), while `size − |[4, 8) ∪ [5, 7)| = 10 − 4 = 6`.
-/
theorem c4_counterexample_spanning_reduce :
    ¬(get_remain (applyCalls (new 0 10) [(5, 7), (4, 8)])
      = 10 - ((Finset.range 10).filter
          fun x => coveredBy [(5, 7), (4, 8)] x = true).card) := by
  decide

/--
C5 (amended): `reduce(a, b)` is idempotent on every well-formed tracker state
(intervals non-empty, ordered, disjoint — as in every reachable state)
provided `a ≤ b` and `[a, b)` meets at most one stored interval.  (The
original unrestricted claim is refuted by
`c5_counterexample_spanning_reduce`.)
-/
theorem c5_reduce_idempotent (a b : Nat) (m : Remains) (hab : a ≤ b)
    (hInv : Inv m) (hcnt : countOverlap m a b ≤ 1) :
    reduce a b (reduce a b m) = reduce a b m := by
  have h1 := reduce_eq_reduceImpl a b hab m hInv
  rw [h1, reduce_eq_reduceImpl a b hab (reduceImpl a b m) (Inv_reduceImpl hab hInv)]
  exact reduceImpl_idem hab hInv hcnt

/-- C5 witness: a concrete single-overlap call, applied twice. -/
theorem c5_reduce_idempotent_witness :
    (40 ≤ 60 ∧ Inv (reduce 50 70 (new 0 100)) ∧
        countOverlap (reduce 50 70 (new 0 100)) 40 60 ≤ 1) ∧
      reduce 40 60 (reduce 40 60 (reduce 50 70 (new 0 100)))
        = reduce 40 60 (reduce 50 70 (new 0 100)) :=
  ⟨by decide, c5_reduce_idempotent 40 60 (reduce 50 70 (new 0 100))
    (by decide) (by decide) (by decide)⟩

/--
C5 counterexample: on the reachable state `[(0, 50), (70, 100)]`
(`new(0, 100)` then `reduce(50, 70)`), the call `reduce(40, 80)` gives
`[(0, 40), (70, 100)]` but a second identical call gives
`[(0, 40), (80, 100)]`: the call is not idempotent.
-/
theorem c5_counterexample_spanning_reduce :
    ¬(reduce 40 80 (reduce 40 80 (reduce 50 70 (new 0 100)))
      = reduce 40 80 (reduce 50 70 (new 0 100))) := by
  decide

end U64Remain

namespace Files

theorem writeAt_length {file : List Nat} {off : Nat} {bytes : List Nat}
    (h : off + bytes.length ≤ file.length) :
    (writeAt file off bytes).length = file.length := by
  simp only [writeAt, List.length_append, List.length_take,
    List.length_replicate, List.length_drop]
  omega

theorem writeAt_getD {file : List Nat} {off : Nat} {bytes : List Nat}
    (j : Nat) (h : off + bytes.length ≤ file.length) :
    (writeAt file off bytes).getD j 0
      = if off ≤ j ∧ j < off + bytes.length then bytes.getD (j - off) 0
        else file.getD j 0 := by
  have hrep : off - file.length = 0 := by omega
  have hw : writeAt file off bytes
      = file.take off ++ (bytes ++ file.drop (off + bytes.length)) := by
    simp [writeAt, hrep]
  have htl : (file.take off).length = off := by
    simp
    omega
  rw [hw, List.getD_eq_getElem?_getD, List.getElem?_append, htl]
  by_cases hj1 : j < off
  · rw [if_pos hj1, if_neg (by omega), List.getElem?_take, if_pos hj1,
      ← List.getD_eq_getElem?_getD]
  · rw [if_neg hj1, List.getElem?_append]
    by_cases hj2 : j - off < bytes.length
    · rw [if_pos hj2, if_pos (by omega), ← List.getD_eq_getElem?_getD]
    · rw [if_neg hj2, if_neg (by omega), List.getElem?_drop,
        show off + bytes.length + (j - off - bytes.length) = j by omega,
        ← List.getD_eq_getElem?_getD]

theorem lastChunkAt_nil (j : Nat) : lastChunkAt [] j = none := rfl

theorem lastChunkAt_cons (c : Nat × List Nat) (calls : List (Nat × List Nat))
    (j : Nat) :
    lastChunkAt (c :: calls) j
      = ((lastChunkAt calls j).or
          (if c.1 ≤ j ∧ j < c.1 + c.2.length then some c else none)) := by
  simp only [lastChunkAt, List.reverse_cons, List.find?_append]
  congr 1
  simp only [List.find?]
  by_cases h : c.1 ≤ j ∧ j < c.1 + c.2.length
  · rw [if_pos h]
    have : (decide (c.1 ≤ j) && decide (j < c.1 + c.2.length)) = true := by
      simp [h.1, h.2]
    rw [this]
  · rw [if_neg h]
    have : (decide (c.1 ≤ j) && decide (j < c.1 + c.2.length)) = false := by
      simp only [Bool.and_eq_false_iff, decide_eq_false_iff_not]
      by_cases h1 : c.1 ≤ j
      · exact Or.inr (fun h2 => h ⟨h1, h2⟩)
      · exact Or.inl h1
    rw [this]

/--
Running a sequence of in-bounds `upload_chunk` calls (each chunk at most
`chunk_size` bytes and fitting below the declared size) always succeeds, and
the resulting session has: the same size and chunk size, a file of unchanged
length whose byte at `j` is the byte of the LAST submitted chunk covering
`j` (or the original byte when none does), and a remainder tracker equal to
folding `reduce(offset, offset + len)` over the calls.
-/
theorem uploadChunks_spec :
    ∀ (calls : List (Nat × List Nat)) (st : FileUploadInfo),
      st.file.length = st.size →
      (∀ c ∈ calls, c.1 < st.size ∧ c.1 + c.2.length ≤ st.size ∧
        c.2.length ≤ st.chunk_size) →
      ∃ st', uploadChunks st calls = .ok st' ∧
        st'.size = st.size ∧ st'.chunk_size = st.chunk_size ∧
        st'.file.length = st.size ∧
        st'.remain = U64Remain.applyCalls st.remain
          (calls.map fun c => (c.1, c.1 + c.2.length)) ∧
        ∀ j, st'.file.getD j 0 = (match lastChunkAt calls j with
          | some c => c.2.getD (j - c.1) 0
          | none => st.file.getD j 0) := by
  intro calls
  induction calls with
  | nil =>
    intro st hlen _
    exact ⟨st, rfl, rfl, rfl, hlen, by simp [U64Remain.applyCalls],
      fun j => by simp [lastChunkAt_nil]⟩
  | cons c rest ih =>
    intro st hlen hvalid
    obtain ⟨hoff, hfit, hchunk⟩ := hvalid c (by simp)
    have htake : c.2.take (min st.chunk_size c.2.length) = c.2 := by
      rw [Nat.min_eq_right hchunk, List.take_length]
    have hwlen : c.1 + c.2.length ≤ st.file.length := by omega
    set st₁ : FileUploadInfo :=
      { st with file := writeAt st.file c.1 c.2,
                remain := U64Remain.reduce c.1 (c.1 + c.2.length) st.remain }
      with hst₁
    have hstep : uploadChunks st (c :: rest) = uploadChunks st₁ rest := by
      simp only [uploadChunks, upload_chunk, htake]
      rw [if_neg (by omega : ¬c.1 ≥ st.size)]
      by_cases hr : U64Remain.get_remain
          (U64Remain.reduce c.1 (c.1 + c.2.length) st.remain) > 0
      · rw [if_pos hr]
      · rw [if_neg hr]
    have hlen₁ : st₁.file.length = st₁.size := by
      rw [hst₁]
      simpa [writeAt_length hwlen] using hlen
    have hvalid₁ : ∀ d ∈ rest, d.1 < st₁.size ∧ d.1 + d.2.length ≤ st₁.size ∧
        d.2.length ≤ st₁.chunk_size := by
      intro d hd
      exact hvalid d (by simp [hd])
    obtain ⟨st', hrun, hsz, hcs, hflen, hrem, hbyte⟩ := ih st₁ hlen₁ hvalid₁
    refine ⟨st', by rw [hstep]; exact hrun, hsz, hcs, hflen, ?_, ?_⟩
    · rw [hrem]
      simp [U64Remain.applyCalls]
    · intro j
      rw [hbyte j, lastChunkAt_cons]
      cases hl : lastChunkAt rest j with
      | some d => simp [Option.or]
      | none =>
        simp only [Option.or]
        by_cases hc : c.1 ≤ j ∧ j < c.1 + c.2.length
        · rw [if_pos hc]
          have := writeAt_getD j hwlen
          rw [if_pos hc] at this
          simpa [hst₁] using this
        · rw [if_neg hc]
          have := writeAt_getD j hwlen
          rw [if_neg hc] at this
          simpa [hst₁] using this

/-- If a position is covered by no call and was covered by the tracker, it is
still covered after folding the calls (the loop removes at most the reduced
ranges, even on the spanning calls it mishandles). -/
theorem covers_applyCalls_keep {x : Nat} :
    ∀ (calls : List (Nat × Nat)) (m : U64Remain.Remains), U64Remain.Inv m →
      (∀ c ∈ calls, c.1 ≤ c.2) → U64Remain.covers m x = true →
      U64Remain.coveredBy calls x = false →
      U64Remain.covers (U64Remain.applyCalls m calls) x = true := by
  intro calls
  induction calls with
  | nil => intro m _ _ hc _; simpa [U64Remain.applyCalls] using hc
  | cons c rest ih =>
    intro m hInv hord hc hcb
    have hab : c.1 ≤ c.2 := hord c (by simp)
    have hcb2 : U64Remain.coveredBy rest x = false ∧
        ¬(c.1 ≤ x ∧ x < c.2) := by
      simp only [U64Remain.coveredBy, List.any_cons, Bool.or_eq_false_iff] at hcb
      refine ⟨hcb.2, ?_⟩
      have := hcb.1
      simp only [Bool.and_eq_false_iff, decide_eq_false_iff_not] at this
      tauto
    have happ : U64Remain.applyCalls m (c :: rest)
        = U64Remain.applyCalls (U64Remain.reduce c.1 c.2 m) rest := by
      simp [U64Remain.applyCalls]
    rw [happ]
    exact ih (U64Remain.reduce c.1 c.2 m) (U64Remain.Inv_reduce hab hInv)
      (fun d hd => hord d (by simp [hd]))
      (U64Remain.covers_reduce_keep hab hInv hc (by omega))
      hcb2.1

/-- A tracker whose remaining total is zero covers nothing (its intervals,
if any, are all empty). -/
theorem covers_eq_false_of_get_remain_zero {x : Nat} :
    ∀ {m : U64Remain.Remains}, U64Remain.get_remain m = 0 →
      U64Remain.covers m x = false := by
  intro m
  induction m with
  | nil => intro _; rfl
  | cons p rest ih =>
    obtain ⟨s, e⟩ := p
    intro h
    simp only [U64Remain.get_remain, List.map_cons, List.sum_cons] at h
    rw [U64Remain.covers_cons]
    have h1 : U64Remain.get_remain rest = 0 := by
      simp only [U64Remain.get_remain]
      omega
    have h2 : e - s = 0 := by omega
    rw [ih h1]
    simp only [Bool.or_false, Bool.and_eq_false_iff, decide_eq_false_iff_not]
    omega

/--
C7 (amended): for an upload session of declared size, every finite sequence
of in-bounds `upload_chunk(offset, data)` calls — in any order, with possibly
overlapping ranges, each chunk at most `chunk_size` bytes (the source writes
only `min(chunk_size, len)` bytes while marking the full `len` covered, so
oversized chunks break the claim: `c7_counterexample_oversized_chunk`) and
fitting below the declared size — that ends with the tracker at zero (the
call that reports `done = true`) leaves the file's bytes equal to the
last-writer-wins composition of the submitted chunks over `[0, size)`.
-/
theorem c7_upload_chunks_compose (size chunk_size : Nat)
    (calls : List (Nat × List Nat)) (st : FileUploadInfo)
    (hvalid : ∀ c ∈ calls, c.1 < size ∧ c.1 + c.2.length ≤ size ∧
      c.2.length ≤ chunk_size)
    (hrun : uploadChunks (uploadInit size chunk_size) calls = .ok st)
    (hdone : U64Remain.get_remain st.remain = 0) :
    st.file.length = size ∧
      ∀ j < size, ∃ c, lastChunkAt calls j = some c ∧
        st.file.getD j 0 = c.2.getD (j - c.1) 0 := by
  obtain ⟨st', hrun', hsz, hcs, hflen, hrem, hbyte⟩ :=
    uploadChunks_spec calls (uploadInit size chunk_size)
      (by simp [uploadInit]) (by simpa [uploadInit] using hvalid)
  rw [hrun'] at hrun
  have hst : st = st' := by
    cases hrun
    rfl
  subst hst
  refine ⟨by simpa [uploadInit] using hflen, ?_⟩
  intro j hj
  have hInv0 : U64Remain.Inv (U64Remain.new 0 size) := by
    constructor
    · intro p hp
      simp [U64Remain.new] at hp
      simp [hp]
      omega
    · simp [U64Remain.new]
  have hcov0 : U64Remain.covers (U64Remain.new 0 size) j = true := by
    simp [U64Remain.new, U64Remain.covers]
    omega
  have hcb : U64Remain.coveredBy
      (calls.map fun c => (c.1, c.1 + c.2.length)) j = true := by
    by_contra hcb
    have hcb' : U64Remain.coveredBy
        (calls.map fun c => (c.1, c.1 + c.2.length)) j = false := by
      cases hq : U64Remain.coveredBy
          (calls.map fun c => (c.1, c.1 + c.2.length)) j
      · rfl
      · exact absurd hq hcb
    have hkeep := covers_applyCalls_keep
      (calls.map fun c => (c.1, c.1 + c.2.length))
      (U64Remain.new 0 size) hInv0
      (by
        intro d hd
        simp only [List.mem_map] at hd
        obtain ⟨c, _, rfl⟩ := hd
        omega)
      hcov0 hcb'
    rw [show U64Remain.applyCalls (U64Remain.new 0 size)
          (calls.map fun c => (c.1, c.1 + c.2.length)) = st.remain from by
        rw [hrem]; simp [uploadInit]] at hkeep
    rw [covers_eq_false_of_get_remain_zero hdone] at hkeep
    exact Bool.noConfusion hkeep
  obtain ⟨d, hd, hdj⟩ := by
    simpa only [U64Remain.coveredBy, List.any_eq_true, Bool.and_eq_true,
      decide_eq_true_eq] using hcb
  simp only [List.mem_map] at hd
  obtain ⟨c, hc, rfl⟩ := hd
  have hfind : (lastChunkAt calls j).isSome := by
    rw [lastChunkAt, List.find?_isSome]
    exact ⟨c, by simp [hc], by simp; omega⟩
  obtain ⟨c', hc'⟩ := Option.isSome_iff_exists.mp hfind
  refine ⟨c', hc', ?_⟩
  have := hbyte j
  rw [hc'] at this
  simpa [uploadInit] using this

/-- C7 witness: a two-chunk upload of a 4-byte file with `chunk_size = 4`. -/
theorem c7_upload_chunks_compose_witness :
    ((∀ c ∈ [((0 : Nat), [1, 2]), ((2 : Nat), [3, 4])],
        c.1 < 4 ∧ c.1 + c.2.length ≤ 4 ∧ c.2.length ≤ 4) ∧
      uploadChunks (uploadInit 4 4) [(0, [1, 2]), (2, [3, 4])]
        = .ok ⟨4, 4, [1, 2, 3, 4], []⟩ ∧
      U64Remain.get_remain ([] : U64Remain.Remains) = 0) ∧
      ((⟨4, 4, [1, 2, 3, 4], []⟩ : FileUploadInfo).file.length = 4 ∧
        ∀ j < 4, ∃ c, lastChunkAt [(0, [1, 2]), (2, [3, 4])] j = some c ∧
          (⟨4, 4, [1, 2, 3, 4], []⟩ : FileUploadInfo).file.getD j 0
            = c.2.getD (j - c.1) 0) :=
  ⟨⟨by decide, by rfl, by decide⟩,
    c7_upload_chunks_compose 4 4 [(0, [1, 2]), (2, [3, 4])]
      ⟨4, 4, [1, 2, 3, 4], []⟩ (by decide) (by rfl) (by decide)⟩

/--
C7 counterexample: with `size = 4`, `chunk_size = 2`, the single call
`upload_chunk(0, [1, 2, 3, 4])` writes only the first two bytes but reduces
the tracker by all four, so the session finishes (`done = true`) with file
`[1, 2, 0, 0]`, whose byte at position 2 differs from the submitted chunk's
byte 3: the tracker counts positions 2 and 3 as covered although they were
never written.
-/
theorem c7_counterexample_oversized_chunk :
    uploadChunks (uploadInit 4 2) [(0, [1, 2, 3, 4])]
        = .ok ⟨4, 2, [1, 2, 0, 0], []⟩ ∧
      U64Remain.get_remain ([] : U64Remain.Remains) = 0 ∧
      lastChunkAt [(0, [1, 2, 3, 4])] 2 = some (0, [1, 2, 3, 4]) ∧
      (⟨4, 2, [1, 2, 0, 0], []⟩ : FileUploadInfo).file.getD 2 0
        ≠ ([1, 2, 3, 4] : List Nat).getD (2 - 0) 0 := by
  refine ⟨by rfl, by decide, by decide, by decide⟩

end Files

namespace Files

/--
C1 (code bug): `Files::upload_request` rejects exactly the supplied paths
whose normalized form IS inside the daemon root, and proceeds on the paths
that escape it — the guard `path.is_some_and(|p| Self::validate_path(p, ROOT))`
bails when validation SUCCEEDS.  `daemon/upload.bin` normalizes inside the
root yet is rejected with "invalid path"; `../etc/passwd` normalizes outside
the root yet is accepted.
-/
theorem c1_upload_request_path_check_inverted :
    validate_path ("daemon/upload.bin".toList) ROOT = true ∧
      upload_request ⟨[], true⟩ (some ("daemon/upload.bin".toList))
        = .error "invalid path" ∧
      validate_path ("../etc/passwd".toList) ROOT = false ∧
      (upload_request ⟨[], true⟩ (some ("../etc/passwd".toList))).isOk = true := by
  refine ⟨by decide, by rfl, by decide, by rfl⟩

/--
C3 (code bug): `Files::download_request` can never return a session: it bails
with "file not found" exactly when `try_exists` reports the file EXISTS, and
when the file does not exist the later `get_sha1` open fails instead — on a
stable filesystem snapshot every path is rejected.  Also, the session-count
guard `file_sessions > cap` is strict, so with one active session and
`cap = 1` the request is NOT rejected by the cap (it fails later for the
inverted-existence reason), contradicting the claimed cap-of-one behavior.
-/
theorem c3_download_request_never_succeeds :
    (download_request ⟨false, true, [], 1, true, 5, "ab".toList⟩
        ("daemon/a.txt".toList) = .error "file not found") ∧
      (∀ (env : DownloadEnv) (path : List Char),
        (download_request env path).isOk = false) ∧
      (download_request
          ⟨false, false, ["daemon/a.txt".toList], 1, true, 5, "ab".toList⟩
          ("daemon/a.txt".toList) = .error "get_sha1: failed to open file") := by
  refine ⟨by rfl, ?_, by rfl⟩
  intro env path
  cases hf : env.fileExists
  · simp only [download_request, hf]
    split_ifs <;> rfl
  · simp only [download_request, hf]
    split_ifs <;> rfl

/--
C6 (code bug): on an open download session over the 2-byte file `[1, 2]`,
`download_range(id, 0, 2)` builds its buffer as two zero bytes (the
preallocated `vec![0; to - from]`) followed by the bytes `read_buf` APPENDS,
and pairs bytes with the first byte in the LOW half of each code unit
(little-endian).  The returned code units are `[0x0000, 0x0201]`, whose
big-endian byte serialization `[0, 0, 2, 1]` is not the file content
`[1, 2]` required by the claim.
-/
theorem c6_download_range_not_big_endian_file_bytes :
    download_range [1, 2] 0 2 2 = .ok (some [0, 513]) ∧
      beBytes [0, 513] = [0, 0, 2, 1] ∧
      beBytes [0, 513] ≠ [1, 2] := by
  refine ⟨by rfl, by decide, by decide⟩

end Files

namespace ProtocolV1

/--
C2 counterexample: a parsed `ping` request with id 7 whose handler fails is
answered with the nil id, not 7 — `handle_request` builds the error response
with `Uuid::nil()`.
-/
theorem c2_counterexample_error_path_nil_id :
    (handle_request (fun _ => .error "boom")
        ⟨ActionParameters.Ping, 7⟩).map ActionResponse.id ≠ some 7 := by
  decide

/--
C2 (amended): for every parsed action request that the v1 dispatcher actually
answers (the implemented actions; the rest hit `todo!()`), the response id
equals the request's client-assigned id on the handler-success path, but is
the nil UUID on the handler-error path.
-/
theorem c2_response_id (dispatch : ActionParameters → Except String ActionResults)
    (request : ActionRequest) (resp : ActionResponse)
    (h : handle_request dispatch request = some resp) :
    resp.id = match dispatch request.parameters with
      | .ok _ => request.id
      | .error _ => Uuid.nil := by
  unfold handle_request at h
  by_cases hd : dispatched request.parameters = true
  · rw [if_pos hd] at h
    cases hdis : dispatch request.parameters with
    | ok r =>
      rw [hdis] at h
      cases h
      rfl
    | error e =>
      rw [hdis] at h
      cases h
      rfl
  · rw [if_neg hd] at h
    exact Option.noConfusion h

/-- C2 witness: a successful `ping` with id 7 is answered with id 7. -/
theorem c2_response_id_witness :
    (handle_request (fun _ => .ok (ActionResults.Ping 5))
        ⟨ActionParameters.Ping, 7⟩ = some (ok (ActionResults.Ping 5) 7)) ∧
      (ok (ActionResults.Ping 5) 7).id = 7 :=
  ⟨by rfl, c2_response_id (fun _ => .ok (ActionResults.Ping 5))
    ⟨ActionParameters.Ping, 7⟩ (ok (ActionResults.Ping 5) 7) (by rfl)⟩

/--
C8 (confirmed): the rate-limit synthesizer re-parses the rejected frame; when
parsing succeeds the synthesized response is `RATE_LIMIT_EXCEEDED` carrying
the request's own id, and when parsing fails it is the `BAD_REQUEST`
response carrying the nil UUID.
-/
theorem c8_rate_limit_preserves_id
    (parse : String → Option ActionRequest) (raw : String) :
    handle_text_rate_limit_exceed parse raw
      = match parse raw with
        | some req => err RATE_LIMIT_EXCEEDED req.id
        | none => err BAD_REQUEST Uuid.nil := by
  unfold handle_text_rate_limit_exceed process_text_request
  cases parse raw <;> rfl

/--
C9 (code bug): `process_bin_request` panics — models as `none` — precisely
when the frame's header parses (magic `0x2cbb`, two complete varints) but the
varint-declared body + attachment lengths reach past the end of the input:
the slice `&raw[start_pos + body_length ..  start_pos + body_length +
attachment_length]` is taken without any bounds check.  The 6-byte frame
`[0, 0, 0x2c, 0xbb, 1, 0]` (declared body length 1, empty input after the
header) panics instead of being answered with `BAD_REQUEST`.
-/
theorem c9_process_bin_request_oob_panic :
    (∀ (parse : List Nat → Option ActionRequest) (raw : List Nat),
      (process_bin_request parse raw).isSome = !binSliceOob raw) ∧
      process_bin_request (fun _ => none) [0, 0, 44, 187, 1, 0] = none ∧
      binSliceOob [0, 0, 44, 187, 1, 0] = true ∧
      (process_bin_request (fun _ => none) [0, 0, 44, 187, 0, 0]).isSome
        = true := by
  refine ⟨?_, by rfl, by rfl, by rfl⟩
  intro parse raw
  unfold process_bin_request binSliceOob
  cases h32 : readBeU32 raw with
  | none => simp [h32]
  | some magic =>
    simp only [h32]
    by_cases hm : magic ≠ 0x2cbb
    · simp [hm]
    · rw [if_neg hm, if_neg hm]
      cases hv1 : readVarint (raw.drop 4) 0 0 with
      | none => simp [hv1]
      | some r1 =>
        obtain ⟨body_length, n1⟩ := r1
        simp only [hv1]
        cases hv2 : readVarint (raw.drop (4 + n1)) 0 0 with
        | none => simp [hv2]
        | some r2 =>
          obtain ⟨attachment_length, n2⟩ := r2
          simp only [hv2]
          by_cases hoob : 4 + n1 + n2 + body_length + attachment_length
              > raw.length
          · simp [hoob]
          · rw [if_neg hoob]
            cases hp : parse (sliceBytes raw (4 + n1 + n2)
                (4 + n1 + n2 + body_length)) <;> simp [hp, hoob]

end ProtocolV1

namespace TaskPool

theorem step_inv {max_workers : Nat} {s s' : PoolState} {ev : PoolEvent}
    (h1 : s.total ≤ max_workers)
    (h2 : s.spawning + s.waiting + s.running = s.total)
    (h : step max_workers s ev = some s') :
    s'.total ≤ max_workers ∧
      s'.spawning + s'.waiting + s'.running = s'.total := by
  cases ev <;> simp only [step] at h <;> split_ifs at h with hc <;>
    first
      | exact Option.noConfusion h
      | (cases h; constructor <;> simp <;> omega)

/--
C10 (confirmed): in the interleaved model of one connection's task pool —
the CAS in `ensure_workers` increments `total_workers` only from its current
value and only below `max_workers`, every spawned worker runs at most one
task at a time, and every worker exit decrements `total_workers` — every
reachable state has at most `max_workers` concurrently running tasks and
`total_workers ≤ max_workers`.
-/
theorem c10_pool_worker_bound (max_workers : Nat)
    (events : List PoolEvent) (st : PoolState)
    (h : run max_workers initPool events = some st) :
    st.running ≤ max_workers ∧ st.total ≤ max_workers := by
  suffices hgen : ∀ (evs : List PoolEvent) (s s' : PoolState),
      s.total ≤ max_workers → s.spawning + s.waiting + s.running = s.total →
      run max_workers s evs = some s' →
      s'.total ≤ max_workers ∧
        s'.spawning + s'.waiting + s'.running = s'.total by
    obtain ⟨ht, hsum⟩ := hgen events initPool st (by simp [initPool])
      (by simp [initPool]) h
    exact ⟨by omega, ht⟩
  intro evs
  induction evs with
  | nil =>
    intro s s' h1 h2 hr
    simp only [run] at hr
    cases hr
    exact ⟨h1, h2⟩
  | cons ev rest ih =>
    intro s s' h1 h2 hr
    simp only [run] at hr
    cases hstep : step max_workers s ev with
    | none => rw [hstep] at hr; exact Option.noConfusion hr
    | some s₁ =>
      rw [hstep] at hr
      obtain ⟨g1, g2⟩ := step_inv h1 h2 hstep
      exact ih s₁ s' g1 g2 hr

/-- C10 witness: spawn one worker under `max_workers = 2` and let it pick up
a task. -/
theorem c10_pool_worker_bound_witness :
    (run 2 initPool [.casSpawn, .workerEnter, .pickupTask]
        = some ⟨1, 0, 0, 1⟩) ∧
      ((1 : Nat) ≤ 2 ∧ (1 : Nat) ≤ 2) :=
  ⟨by rfl, c10_pool_worker_bound 2 [.casSpawn, .workerEnter, .pickupTask]
    ⟨1, 0, 0, 1⟩ (by rfl)⟩

end TaskPool
